import Mathlib

set_option maxRecDepth 200000

/-!
Verification of the gexorank LexoRank library (Go) against its specification.

The Go code is shallowly embedded: strings become `List Char`, `big.Int`
arithmetic becomes `Int`/`Nat` arithmetic (all values involved are
non-negative, and Go `big.Int.Div` agrees with Lean's division on
non-negative operands), fallible functions return `Except`.
-/

instance {ε α : Type} [DecidableEq ε] [DecidableEq α] : DecidableEq (Except ε α) := fun a b =>
  match a, b with
  | .error e, .error f => decidable_of_iff (e = f) (by simp)
  | .ok x, .ok y => decidable_of_iff (x = y) (by simp)
  | .error _, .ok _ => isFalse (fun h => Except.noConfusion h)
  | .ok _, .error _ => isFalse (fun h => Except.noConfusion h)

namespace Gexorank

/-! ## Alphabet (internal/alphabet/alphabet.go) -/

/-- The ordered base36 character set (`chars` in alphabet.go). -/
def alphaChars : List Char := "0123456789abcdefghijklmnopqrstuvwxyz".toList

/-- Index of a character in a list, or -1 when absent.  This is the
content of the `charToVal` table that alphabet.go builds in `init`. -/
def indexIn (c : Char) : List Char → Int
  | [] => -1
  | d :: ds =>
    if d = c then 0
    else
      let r := indexIn c ds
      if r < 0 then -1 else r + 1

/-- `alphabet.ToVal`: symbol to value, -1 when not in the alphabet. -/
def toVal (c : Char) : Int := indexIn c alphaChars

/-- `alphabet.IsValid`: `charToVal[c] >= 0`. -/
def isValidChar (c : Char) : Bool := decide (0 ≤ toVal c)

/-- `alphabet.Validate` succeeds iff every symbol is in the alphabet
(the Go version reports the first offending position; only the
success/failure outcome matters here). -/
def validate (s : List Char) : Bool := s.all isValidChar

/-- `alphabet.ToChar`: value to symbol.  The Go version panics outside
[0, 36); every call site passes `n % 36`, so the default is never used. -/
def toChar (v : Nat) : Char := alphaChars.getD v '0'

/-- `alphabet.Min()` = chars[0] = '0'. -/
def minChar : Char := alphaChars.getD 0 '0'

/-- `alphabet.Max()` = chars[35] = 'z'. -/
def maxChar : Char := alphaChars.getD 35 '0'

/-- `alphabet.Mid()` = chars[18] = 'i'. -/
def midChar : Char := alphaChars.getD 18 '0'

/-- Proof-side value of a symbol as a natural number. -/
def toValNat (c : Char) : Nat := (toVal c).toNat

/-! ## big.Int helpers (lexorank.go value section) -/

/-- `strToBigInt`: fold the base36 digits into an integer. -/
def strToBigInt (s : List Char) : Int :=
  s.foldl (fun acc c => acc * 36 + toVal c) 0

/-- Proof-side value of a digit string as a natural number; agrees with
`strToBigInt` on valid strings. -/
def valNat (s : List Char) : Nat :=
  s.foldl (fun acc c => acc * 36 + toValNat c) 0

/-- Little-endian digits of `n`, with explicit fuel so that the kernel
can evaluate it (the Go loop is `for work > 0 { work /= 36 }`). -/
def digitsRevAux : Nat → Nat → List Char
  | 0, _ => []
  | fuel + 1, n => if n = 0 then [] else toChar (n % 36) :: digitsRevAux fuel (n / 36)

/-- `bigIntToStr`: render `n` in base36, left-padded with '0' to at
least `minLen` symbols.  For `n ≤ 0` the Go code produces the
all-minimum string of length `minLen` (the loop body never runs). -/
def bigIntToStr (n : Int) (minLen : Nat) : List Char :=
  let m := n.toNat
  let digits := (digitsRevAux m m).reverse
  List.replicate (minLen - digits.length) minChar ++ digits

/-- `midpointStr`: floor mean of two equal-length base36 strings,
rendered at the length of the first. -/
def midpointStr (lo hi : List Char) : List Char :=
  bigIntToStr ((strToBigInt lo + strToBigInt hi) / 2) lo.length

/-- One step of `trimTrailingZeros`, on the reversed string: remove
up to `k` leading '0' symbols. -/
def dropZerosUpTo : Nat → List Char → List Char
  | 0, l => l
  | _ + 1, [] => []
  | k + 1, c :: cs => if c = minChar then dropZerosUpTo k cs else c :: cs

/-- `trimTrailingZeros`: drop trailing '0' symbols while the length
stays above `minLen`. -/
def trimTrailingZeros (s : List Char) (minLen : Nat) : List Char :=
  (dropZerosUpTo (s.length - minLen) s.reverse).reverse

/-! ## RankValue operations (lexorank.go value section) -/

/-- `DefaultLength`: fixed initial width of a rank value. -/
def DefaultLength : Nat := 6

/-- `MaxLength`: maximum allowed rank value length. -/
def MaxLength : Nat := 128

/-- Error kinds of the library, following the specification taxonomy.
The Go code reports these as distinct error values / messages. -/
inductive RankErr where
  | invalidFormat
  | invalidBucket
  | invalidValue
  | crossBucket
  | equalValues
  | exhausted
deriving DecidableEq

/-- Go string comparison `a < b` (byte-lexicographic; all strings the
library compares are ASCII, where byte order is character order). -/
def strLt : List Char → List Char → Bool
  | [], [] => false
  | [], _ :: _ => true
  | _ :: _, [] => false
  | c :: ct, d :: dt => if c < d then true else if d < c then false else strLt ct dt

/-- Pad `s` on the right with '0' up to length `n` (one arm of
`RankValue.normalize`). -/
def padTo (s : List Char) (n : Nat) : List Char :=
  s ++ List.replicate (n - s.length) minChar

/-- `RankValue.normalize`: right-pad the shorter operand with the
minimum symbol until the lengths agree. -/
def normalize (a b : List Char) : List Char × List Char :=
  (padTo a b.length, padTo b a.length)

/-- `RankValue.CompareTo`: compare the normalized strings. -/
def compareToVal (a b : List Char) : Int :=
  let p := normalize a b
  if strLt p.1 p.2 then -1 else if strLt p.2 p.1 then 1 else 0

/-- `ParseRankValue`: reject empty input and invalid symbols.  (Note:
the Go code performs no maximum-length check.) -/
def parseRankValue (s : List Char) : Except RankErr (List Char) :=
  if s.length = 0 then .error .invalidValue
  else if validate s then .ok s else .error .invalidValue

/-- `MinValue(length)`: the all-'0' string. -/
def minValue (n : Nat) : List Char := List.replicate n minChar

/-- `MaxValue(length)`: the all-'z' string. -/
def maxValue (n : Nat) : List Char := List.replicate n maxChar

/-- `MidValue(length)`: the all-'i' string. -/
def midValue (n : Nat) : List Char := List.replicate n midChar

/-- `RankValue.Between` (lexorank.go lines 738-775). -/
def betweenVal (r other : List Char) : Except RankErr (List Char) :=
  if compareToVal r other = 0 then .error .equalValues
  else
    let p := if compareToVal r other > 0 then (other, r) else (r, other)
    let lower := p.1
    let upper := p.2
    let q := normalize lower upper
    let lo := q.1
    let hi := q.2
    let mid := midpointStr lo hi
    if mid = lo then
      if lo.length + 1 > MaxLength then .error .exhausted
      else
        let lo2 := lo ++ [minChar]
        let hi2 := hi ++ [minChar]
        let mid2 := midpointStr lo2 hi2
        .ok (trimTrailingZeros mid2 (min lower.length upper.length))
    else .ok (trimTrailingZeros mid (min lower.length upper.length))

/-- `RankValue.Increment`: value + 1, re-rendered at the original
length (the rendering may exceed it on overflow). -/
def incrementVal (s : List Char) : List Char :=
  bigIntToStr (strToBigInt s + 1) s.length

/-- `RankValue.Decrement`: value - 1 clamped at zero, re-rendered at
the original length. -/
def decrementVal (s : List Char) : List Char :=
  let n := strToBigInt s - 1
  bigIntToStr (if n < 0 then 0 else n) s.length

/-! ## Bucket (bucket file) -/

/-- The three LexoRank buckets.  The Go type is `uint8`; the only
values the package constructs or parses are 0, 1, 2. -/
inductive Bucket where
  | b0
  | b1
  | b2
deriving DecidableEq

/-- Numeric value of a bucket (for the `<` comparisons in CompareTo). -/
def Bucket.toNat : Bucket → Nat
  | .b0 => 0
  | .b1 => 1
  | .b2 => 2

/-- `Bucket.String`: decimal rendering. -/
def Bucket.str : Bucket → List Char
  | .b0 => ['0']
  | .b1 => ['1']
  | .b2 => ['2']

/-- `ParseBucket`: only "0", "1", "2" are accepted. -/
def parseBucket (s : List Char) : Except RankErr Bucket :=
  if s = ['0'] then .ok .b0
  else if s = ['1'] then .ok .b1
  else if s = ['2'] then .ok .b2
  else .error .invalidBucket

/-! ## LexoRank (lexorank.go rank section) -/

/-- A rank: bucket plus value. -/
structure LexoRank where
  bucket : Bucket
  value : List Char
deriving DecidableEq

/-- `strings.SplitN(s, "|", 2)`: split at the first separator, `none`
when there is no separator. -/
def splitOnce : List Char → Option (List Char × List Char)
  | [] => none
  | c :: cs =>
    if c = '|' then some ([], cs)
    else
      match splitOnce cs with
      | none => none
      | some p => some (c :: p.1, p.2)

/-- `Parse` (lexorank.go lines 131-148). -/
def parse (s : List Char) : Except RankErr LexoRank :=
  match splitOnce s with
  | none => .error .invalidFormat
  | some (bs, vs) =>
    match parseBucket bs with
    | .error e => .error e
    | .ok b =>
      match parseRankValue vs with
      | .error e => .error e
      | .ok v => .ok ⟨b, v⟩

/-- `LexoRank.String`: "{bucket}|{value}". -/
def rankToString (r : LexoRank) : List Char :=
  r.bucket.str ++ '|' :: r.value

/-- `LexoRank.CompareTo`: bucket first, then value. -/
def rankCompareTo (r other : LexoRank) : Int :=
  if r.bucket.toNat < other.bucket.toNat then -1
  else if other.bucket.toNat < r.bucket.toNat then 1
  else compareToVal r.value other.value

/-- `Initial()`: bucket 0 at the mid value of the default length. -/
def initialRank : LexoRank := ⟨Bucket.b0, midValue DefaultLength⟩

/-- `Between` (lexorank.go lines 178-189). -/
def rankBetween (a b : LexoRank) : Except RankErr LexoRank :=
  if a.bucket ≠ b.bucket then .error .crossBucket
  else
    match betweenVal a.value b.value with
    | .error e => .error e
    | .ok m => .ok ⟨a.bucket, m⟩

/-- `LexoRank.GenNext` (lexorank.go lines 224-232): append the middle
symbol; fall back to `Increment` when that would exceed `MaxLength`. -/
def genNext (r : LexoRank) : LexoRank :=
  let v := r.value ++ [midChar]
  if v.length > MaxLength then ⟨r.bucket, incrementVal r.value⟩
  else ⟨r.bucket, v⟩

/-- `LexoRank.GenPrev` (lexorank.go lines 239-255): saturate at the
all-minimum value; otherwise decrement and append the middle symbol,
falling back to the plain decrement when too long. -/
def genPrev (r : LexoRank) : LexoRank :=
  if compareToVal r.value (minValue r.value.length) = 0 then r
  else
    let dec := decrementVal r.value
    let v := dec ++ [midChar]
    if v.length > MaxLength then ⟨r.bucket, dec⟩
    else ⟨r.bucket, v⟩

/-- `GenBetween`: nil-safe dispatcher over optional neighbors. -/
def genBetween (prev next : Option LexoRank) : Except RankErr LexoRank :=
  match prev, next with
  | none, none => .ok initialRank
  | none, some nxt => .ok (genPrev nxt)
  | some prv, none => .ok (genNext prv)
  | some prv, some nxt => rankBetween prv nxt

/-- `Rebalance` (lexorank.go lines 335-372): redistribute `n` ranks
evenly, `rank_i = min + step*(i+1)` with `step = (max-min)/(n+1)`,
recomputed at `DefaultLength + 2` when the step at `DefaultLength` is
zero; values are always rendered at `DefaultLength`. -/
def rebalance (ranks : List LexoRank) (bucket : Bucket) : List LexoRank :=
  let n := ranks.length
  if n = 0 then []
  else
    let minI := strToBigInt (List.replicate DefaultLength minChar)
    let maxI := strToBigInt (List.replicate DefaultLength maxChar)
    let step := (maxI - minI) / ((n + 1 : Nat) : Int)
    let p : Int × Int :=
      if step = 0 then
        let minI2 := strToBigInt (List.replicate (DefaultLength + 2) minChar)
        let maxI2 := strToBigInt (List.replicate (DefaultLength + 2) maxChar)
        (minI2, (maxI2 - minI2) / ((n + 1 : Nat) : Int))
      else (minI, step)
    (List.range n).map
      (fun i => ⟨bucket, bigIntToStr (p.1 + p.2 * ((i + 1 : Nat) : Int)) DefaultLength⟩)

/-! ## InsertBetween (insert.go) -/

/-- Outcome of the retry protocol.  `inserted r k` records the
zero-based index of the successful attempt, so `k + 1` neighbor reads
and `k + 1` insert attempts were made. -/
inductive InsertOutcome (ε : Type) where
  | inserted (r : LexoRank) (attempt : Nat)
  | neighborsFailed (e : ε)
  | genFailed (e : RankErr)
  | retriesExceeded (last : Option ε)
deriving DecidableEq

/-- The retry loop of `InsertBetween`: the callbacks are indexed by the
attempt number (modelling the Go closures' observable call sequence);
`ins i r = none` means the i-th insert succeeded. -/
def insertLoop {ε : Type} (nb : Nat → Except ε (Option LexoRank × Option LexoRank))
    (ins : Nat → LexoRank → Option ε) :
    Nat → Option ε → Nat → InsertOutcome ε
  | _, lastErr, 0 => .retriesExceeded lastErr
  | i, _, fuel + 1 =>
    match nb i with
    | .error e => .neighborsFailed e
    | .ok pq =>
      match genBetween pq.1 pq.2 with
      | .error e => .genFailed e
      | .ok r =>
        match ins i r with
        | some e => insertLoop nb ins (i + 1) (some e) fuel
        | none => .inserted r i

/-- `InsertBetween` (insert.go lines 44-70): coerce `maxRetries` up to
at least 1, then run the loop. -/
def insertBetween {ε : Type} (nb : Nat → Except ε (Option LexoRank × Option LexoRank))
    (ins : Nat → LexoRank → Option ε) (maxRetries : Int) : InsertOutcome ε :=
  let m := if maxRetries < 1 then 1 else maxRetries
  insertLoop nb ins 0 none m.toNat

/-- Proof-side scaled value: the value of `s` read as if right-padded
with '0' to length `N`. -/
def sval (s : List Char) (N : Nat) : Nat := valNat s * 36 ^ (N - s.length)

/-! ## Character-level lemmas -/

theorem neg_one_le_indexIn (c : Char) (l : List Char) : -1 ≤ indexIn c l := by
  induction l with
  | nil => simp [indexIn]
  | cons d ds ih =>
    simp only [indexIn]
    split
    · omega
    · split <;> omega

theorem indexIn_lt (c : Char) (l : List Char) : indexIn c l < (l.length : Int) := by
  induction l with
  | nil => simp [indexIn]
  | cons d ds ih =>
    simp only [indexIn, List.length_cons]
    split
    · push_cast
      omega
    · split
      · push_cast
        omega
      · push_cast
        push_cast at ih
        omega

theorem indexIn_nonneg_iff (c : Char) (l : List Char) : 0 ≤ indexIn c l ↔ c ∈ l := by
  induction l with
  | nil => simp [indexIn]
  | cons d ds ih =>
    simp only [indexIn, List.mem_cons]
    split
    · rename_i hdc
      simp [hdc.symm]
    · rename_i hdc
      have hne : ¬ c = d := fun h => hdc h.symm
      split
      · rename_i hr
        have hmem : ¬ c ∈ ds := fun hm => absurd (ih.mpr hm) (by omega)
        constructor
        · intro h0
          omega
        · rintro (h | h)
          · exact absurd h hne
          · exact absurd h hmem
      · rename_i hr
        have hmem : c ∈ ds := ih.mp (by omega)
        constructor
        · intro _
          exact Or.inr hmem
        · intro _
          omega

theorem isValidChar_iff_mem (c : Char) : isValidChar c = true ↔ c ∈ alphaChars := by
  rw [isValidChar, decide_eq_true_iff]
  exact indexIn_nonneg_iff c alphaChars

theorem toValNat_lt_36 (c : Char) : toValNat c < 36 := by
  have h1 := indexIn_lt c alphaChars
  have h2 : (alphaChars.length : Int) = 36 := by decide
  rw [h2] at h1
  unfold toValNat toVal
  omega

theorem mem_char_lt_iff :
    ∀ c ∈ alphaChars, ∀ d ∈ alphaChars, (c < d ↔ toValNat c < toValNat d) := by decide

theorem mem_char_inj :
    ∀ c ∈ alphaChars, ∀ d ∈ alphaChars, toValNat c = toValNat d → c = d := by decide

theorem valid_char_lt_iff {c d : Char} (hc : isValidChar c = true) (hd : isValidChar d = true) :
    c < d ↔ toValNat c < toValNat d :=
  mem_char_lt_iff c ((isValidChar_iff_mem c).mp hc) d ((isValidChar_iff_mem d).mp hd)

theorem valid_char_inj {c d : Char} (hc : isValidChar c = true) (hd : isValidChar d = true)
    (h : toValNat c = toValNat d) : c = d :=
  mem_char_inj c ((isValidChar_iff_mem c).mp hc) d ((isValidChar_iff_mem d).mp hd) h

theorem toChar_valid : ∀ m, m < 36 → isValidChar (toChar m) = true := by decide

theorem toValNat_toChar : ∀ m, m < 36 → toValNat (toChar m) = m := by decide

theorem toValNat_minChar : toValNat minChar = 0 := by decide

theorem isValidChar_minChar : isValidChar minChar = true := by decide

theorem toValNat_maxChar : toValNat maxChar = 35 := by decide

theorem isValidChar_maxChar : isValidChar maxChar = true := by decide

theorem toValNat_midChar : toValNat midChar = 18 := by decide

theorem isValidChar_midChar : isValidChar midChar = true := by decide

theorem sep_not_valid : isValidChar '|' = false := by decide

/-! ## Numeric value of digit strings -/

theorem valNat_foldl (s : List Char) (acc : Nat) :
    s.foldl (fun a c => a * 36 + toValNat c) acc = acc * 36 ^ s.length + valNat s := by
  induction s generalizing acc with
  | nil => simp [valNat]
  | cons c t ih =>
    show t.foldl _ (acc * 36 + toValNat c) = _
    rw [ih (acc * 36 + toValNat c)]
    have hv : valNat (c :: t) = (0 * 36 + toValNat c) * 36 ^ t.length + valNat t := by
      show t.foldl _ (0 * 36 + toValNat c) = _
      rw [ih (0 * 36 + toValNat c)]
    rw [hv]
    simp [List.length_cons, pow_succ]
    ring

theorem valNat_cons (c : Char) (t : List Char) :
    valNat (c :: t) = toValNat c * 36 ^ t.length + valNat t := by
  show t.foldl _ (0 * 36 + toValNat c) = _
  rw [valNat_foldl t (0 * 36 + toValNat c)]
  ring

theorem valNat_append (s t : List Char) :
    valNat (s ++ t) = valNat s * 36 ^ t.length + valNat t := by
  show (s ++ t).foldl _ 0 = _
  rw [List.foldl_append]
  exact valNat_foldl t (valNat s)

theorem valNat_lt (s : List Char) : valNat s < 36 ^ s.length := by
  induction s with
  | nil => simp [valNat]
  | cons c t ih =>
    rw [valNat_cons, List.length_cons]
    have hc := toValNat_lt_36 c
    calc toValNat c * 36 ^ t.length + valNat t
        < toValNat c * 36 ^ t.length + 36 ^ t.length := by omega
      _ = (toValNat c + 1) * 36 ^ t.length := by ring
      _ ≤ 36 * 36 ^ t.length := by
          exact Nat.mul_le_mul_right _ (by omega)
      _ = 36 ^ (t.length + 1) := by rw [pow_succ]; ring

theorem valNat_replicate_min (k : Nat) : valNat (List.replicate k minChar) = 0 := by
  induction k with
  | zero => simp [valNat]
  | succ n ih =>
    rw [List.replicate_succ, valNat_cons, toValNat_minChar, ih]
    simp

theorem valNat_replicate_max (k : Nat) : valNat (List.replicate k maxChar) = 36 ^ k - 1 := by
  induction k with
  | zero => simp [valNat]
  | succ n ih =>
    rw [List.replicate_succ, valNat_cons, toValNat_maxChar, ih, List.length_replicate]
    have h1 : 1 ≤ 36 ^ n := Nat.one_le_pow _ _ (by omega)
    have h2 : 36 ^ (n + 1) = 36 * 36 ^ n := by rw [pow_succ]; ring
    omega

theorem strToBigInt_foldl (s : List Char) (h : s.all isValidChar = true) (acc : Nat) :
    s.foldl (fun a c => a * 36 + toVal c) (acc : Int) =
      ((s.foldl (fun a c => a * 36 + toValNat c) acc : Nat) : Int) := by
  induction s generalizing acc with
  | nil => simp
  | cons c t ih =>
    rw [List.all_cons, Bool.and_eq_true] at h
    have hc : toVal c = (toValNat c : Int) := by
      have : 0 ≤ toVal c := by
        have := (isValidChar_iff_mem c).mp h.1
        exact (indexIn_nonneg_iff c alphaChars).mpr this
      unfold toValNat
      omega
    show t.foldl _ ((acc : Int) * 36 + toVal c) = _
    rw [hc]
    have : ((acc : Int) * 36 + (toValNat c : Int)) = ((acc * 36 + toValNat c : Nat) : Int) := by
      push_cast
      ring
    rw [this, ih h.2]
    rfl

theorem strToBigInt_eq_valNat (s : List Char) (h : s.all isValidChar = true) :
    strToBigInt s = (valNat s : Int) := by
  show s.foldl _ ((0 : Nat) : Int) = _
  rw [strToBigInt_foldl s h 0]
  rfl

/-! ## Lexicographic comparison agrees with numeric comparison -/

theorem valNat_dominance {c d : Char} {t u : List Char} (hlen : t.length = u.length)
    (h : toValNat c < toValNat d) : valNat (c :: t) < valNat (d :: u) := by
  rw [valNat_cons, valNat_cons, hlen]
  have h1 : valNat t < 36 ^ u.length := by
    rw [← hlen]
    exact valNat_lt t
  calc toValNat c * 36 ^ u.length + valNat t
      < toValNat c * 36 ^ u.length + 36 ^ u.length := by omega
    _ = (toValNat c + 1) * 36 ^ u.length := by ring
    _ ≤ toValNat d * 36 ^ u.length := Nat.mul_le_mul_right _ (by omega)
    _ ≤ toValNat d * 36 ^ u.length + valNat u := Nat.le_add_right _ _

theorem strLt_iff_valNat :
    ∀ (a b : List Char), a.length = b.length → a.all isValidChar = true →
      b.all isValidChar = true → (strLt a b = true ↔ valNat a < valNat b)
  | [], [], _, _, _ => by simp [strLt]
  | [], _ :: _, hlen, _, _ => by simp at hlen
  | _ :: _, [], hlen, _, _ => by simp at hlen
  | c :: t, d :: u, hlen, ha, hb => by
    rw [List.all_cons, Bool.and_eq_true] at ha hb
    have hlen' : t.length = u.length := by
      simpa using hlen
    simp only [strLt]
    by_cases hcd : c < d
    · have hv : toValNat c < toValNat d := (valid_char_lt_iff ha.1 hb.1).mp hcd
      simp only [hcd, if_true]
      simp [valNat_dominance hlen' hv]
    · by_cases hdc : d < c
      · have hv : toValNat d < toValNat c := (valid_char_lt_iff hb.1 ha.1).mp hdc
        have := valNat_dominance hlen'.symm hv
        simp only [hcd, if_false, hdc, if_true]
        constructor
        · intro h
          exact absurd h (by simp)
        · intro h
          omega
      · have hceq : c = d := le_antisymm (le_of_not_lt hdc) (le_of_not_lt hcd)
        subst hceq
        simp only [hcd, if_false]
        rw [strLt_iff_valNat t u hlen' ha.2 hb.2, valNat_cons, valNat_cons, hlen']
        have h1 : valNat t < 36 ^ u.length := by
          rw [← hlen']
          exact valNat_lt t
        have h2 : valNat u < 36 ^ u.length := valNat_lt u
        omega

theorem valNat_inj :
    ∀ (a b : List Char), a.length = b.length → a.all isValidChar = true →
      b.all isValidChar = true → valNat a = valNat b → a = b
  | [], [], _, _, _, _ => rfl
  | [], _ :: _, hlen, _, _, _ => by simp at hlen
  | _ :: _, [], hlen, _, _, _ => by simp at hlen
  | c :: t, d :: u, hlen, ha, hb, hval => by
    rw [List.all_cons, Bool.and_eq_true] at ha hb
    have hlen' : t.length = u.length := by
      simpa using hlen
    have hhead : toValNat c = toValNat d := by
      rcases Nat.lt_trichotomy (toValNat c) (toValNat d) with h | h | h
      · exact absurd hval (Nat.ne_of_lt (valNat_dominance hlen' h))
      · exact h
      · exact absurd hval.symm (Nat.ne_of_lt (valNat_dominance hlen'.symm h))
    have hc : c = d := valid_char_inj ha.1 hb.1 hhead
    subst hc
    have htail : valNat t = valNat u := by
      rw [valNat_cons, valNat_cons, hlen', hhead] at hval
      omega
    rw [valNat_inj t u hlen' ha.2 hb.2 htail]

/-! ## Padding and scaled values -/

theorem length_padTo (s : List Char) (n : Nat) : (padTo s n).length = max s.length n := by
  simp [padTo]
  omega

theorem valNat_padTo (s : List Char) (n : Nat) :
    valNat (padTo s n) = valNat s * 36 ^ (n - s.length) := by
  rw [padTo, valNat_append, valNat_replicate_min, List.length_replicate]
  omega

theorem padTo_valid (s : List Char) (n : Nat) (h : s.all isValidChar = true) :
    (padTo s n).all isValidChar = true := by
  rw [padTo, List.all_append, h, Bool.true_and]
  rw [List.all_eq_true]
  intro c hc
  rw [List.eq_of_mem_replicate hc]
  exact isValidChar_minChar

theorem sval_scale (s : List Char) {M N : Nat} (hs : s.length ≤ M) (hMN : M ≤ N) :
    sval s N = sval s M * 36 ^ (N - M) := by
  unfold sval
  rw [mul_assoc, ← pow_add]
  congr 2
  omega

theorem valNat_padTo_eq_sval (a b : List Char) :
    valNat (padTo a b.length) = sval a (max a.length b.length) := by
  rw [valNat_padTo, sval]
  congr 2
  omega

/-! ## CompareTo agrees with scaled numeric comparison -/

theorem strLt_asymm : ∀ a b : List Char, strLt a b = true → strLt b a = false
  | [], [], h => by simp [strLt] at h
  | [], _ :: _, _ => by simp [strLt]
  | _ :: _, [], h => by simp [strLt] at h
  | c :: t, d :: u, h => by
    simp only [strLt] at h ⊢
    by_cases hcd : c < d
    · have hdc : ¬ d < c := lt_asymm hcd
      simp [hcd, hdc]
    · by_cases hdc : d < c
      · simp [hcd, hdc] at h
      · rw [if_neg hcd, if_neg hdc] at h
        rw [if_neg hdc, if_neg hcd]
        exact strLt_asymm t u h

theorem compareToVal_one_iff_swap (a b : List Char) :
    compareToVal a b = 1 ↔ compareToVal b a = -1 := by
  unfold compareToVal normalize
  dsimp only
  rcases hss : strLt (padTo a b.length) (padTo b a.length) with _ | _
  · rcases hts : strLt (padTo b a.length) (padTo a b.length) with _ | _ <;>
      simp [hss, hts]
  · have hts := strLt_asymm _ _ hss
    simp [hss, hts]

theorem compareToVal_trichotomy (a b : List Char) :
    compareToVal a b = -1 ∨ compareToVal a b = 0 ∨ compareToVal a b = 1 := by
  unfold compareToVal
  dsimp only
  split
  · left
    rfl
  · split
    · right
      right
      rfl
    · right
      left
      rfl

theorem compareToVal_neg_iff_max (a b : List Char) (ha : a.all isValidChar = true)
    (hb : b.all isValidChar = true) :
    compareToVal a b = -1 ↔
      sval a (max a.length b.length) < sval b (max a.length b.length) := by
  have hx := valNat_padTo_eq_sval a b
  have hy := valNat_padTo_eq_sval b a
  rw [Nat.max_comm b.length a.length] at hy
  have hlen : (padTo a b.length).length = (padTo b a.length).length := by
    rw [length_padTo, length_padTo]
    omega
  have hs := strLt_iff_valNat (padTo a b.length) (padTo b a.length) hlen
    (padTo_valid a b.length ha) (padTo_valid b a.length hb)
  rw [hx, hy] at hs
  unfold compareToVal normalize
  dsimp only
  split
  · rename_i hlt
    simp only [true_iff]
    exact hs.mp hlt
  · rename_i hlt
    have : ¬ sval a (max a.length b.length) < sval b (max a.length b.length) := by
      intro hc
      exact hlt (hs.mpr hc)
    split
    · constructor
      · intro hcl
        exact absurd hcl (by simp)
      · intro hc
        exact absurd hc this
    · constructor
      · intro hcl
        exact absurd hcl (by simp)
      · intro hc
        exact absurd hc this

theorem compareToVal_neg_iff (a b : List Char) (ha : a.all isValidChar = true)
    (hb : b.all isValidChar = true) {N : Nat} (hla : a.length ≤ N) (hlb : b.length ≤ N) :
    compareToVal a b = -1 ↔ sval a N < sval b N := by
  rw [compareToVal_neg_iff_max a b ha hb]
  have hM : max a.length b.length ≤ N := by omega
  rw [sval_scale a (Nat.le_max_left _ _) hM, sval_scale b (Nat.le_max_right _ _) hM]
  have hp : 0 < 36 ^ (N - max a.length b.length) := Nat.pos_pow_of_pos _ (by omega)
  constructor
  · intro h
    exact Nat.mul_lt_mul_of_lt_of_le h (le_refl _) hp
  · intro h
    exact Nat.lt_of_mul_lt_mul_right h

theorem compareToVal_zero_iff (a b : List Char) (ha : a.all isValidChar = true)
    (hb : b.all isValidChar = true) {N : Nat} (hla : a.length ≤ N) (hlb : b.length ≤ N) :
    compareToVal a b = 0 ↔ sval a N = sval b N := by
  have h1 := compareToVal_neg_iff a b ha hb hla hlb
  have h2 := compareToVal_neg_iff b a hb ha hlb hla
  have hsw := compareToVal_one_iff_swap a b
  rcases compareToVal_trichotomy a b with h | h | h
  · rw [h]
    have := h1.mp h
    constructor
    · intro hc
      exact absurd hc (by simp)
    · intro hc
      omega
  · rw [h]
    simp only [true_iff]
    have hn1 : ¬ sval a N < sval b N := fun hc => by
      rw [h1.mpr hc] at h
      exact absurd h (by simp)
    have hn2 : ¬ sval b N < sval a N := fun hc => by
      have := hsw.mpr (h2.mpr hc)
      rw [this] at h
      exact absurd h (by simp)
    omega
  · rw [h]
    have := h2.mp (hsw.mp h)
    constructor
    · intro hc
      exact absurd hc (by simp)
    · intro hc
      omega

theorem compareToVal_one_iff (a b : List Char) (ha : a.all isValidChar = true)
    (hb : b.all isValidChar = true) {N : Nat} (hla : a.length ≤ N) (hlb : b.length ≤ N) :
    compareToVal a b = 1 ↔ sval b N < sval a N := by
  rw [compareToVal_one_iff_swap a b]
  exact compareToVal_neg_iff b a hb ha hlb hla

theorem compareToVal_zero_iff_eq (a b : List Char) (hlen : a.length = b.length)
    (ha : a.all isValidChar = true) (hb : b.all isValidChar = true) :
    compareToVal a b = 0 ↔ a = b := by
  rw [compareToVal_zero_iff a b ha hb (le_of_eq hlen) (le_refl _)]
  unfold sval
  rw [hlen]
  simp only [Nat.sub_self, pow_zero, mul_one]
  constructor
  · intro h
    exact valNat_inj a b hlen ha hb h
  · intro h
    rw [h]

/-! ## Rendering round-trip -/

theorem digitsRev_valid : ∀ fuel n : Nat, (digitsRevAux fuel n).all isValidChar = true
  | 0, _ => rfl
  | fuel + 1, n => by
    rw [digitsRevAux]
    split
    · rfl
    · rw [List.all_cons, Bool.and_eq_true]
      exact ⟨toChar_valid _ (Nat.mod_lt _ (by omega)), digitsRev_valid fuel (n / 36)⟩

theorem digitsRev_val : ∀ fuel n : Nat, n ≤ fuel → valNat (digitsRevAux fuel n).reverse = n
  | 0, n, h => by
    have : n = 0 := by omega
    subst this
    rfl
  | fuel + 1, n, h => by
    rw [digitsRevAux]
    split
    · rename_i h0
      subst h0
      rfl
    · rename_i h0
      have h1 : 1 ≤ n := by omega
      have h2 : n / 36 ≤ fuel := by
        have hlt : n / 36 < n := Nat.div_lt_self (by omega) (by omega)
        omega
      rw [List.reverse_cons, valNat_append, digitsRev_val fuel (n / 36) h2]
      have hc : valNat [toChar (n % 36)] = n % 36 := by
        rw [show [toChar (n % 36)] = toChar (n % 36) :: [] from rfl, valNat_cons]
        simp [toValNat_toChar _ (Nat.mod_lt _ (by omega)), valNat]
      rw [hc]
      simp only [List.length_singleton, pow_one]
      omega

theorem digitsRev_len : ∀ (fuel n L : Nat), n < 36 ^ L → (digitsRevAux fuel n).length ≤ L
  | 0, _, _, _ => by simp [digitsRevAux]
  | fuel + 1, n, L, h => by
    rw [digitsRevAux]
    split
    · simp
    · rename_i h0
      have h1 : 1 ≤ n := by omega
      have hL : 1 ≤ L := by
        by_contra hc
        have : L = 0 := by omega
        subst this
        simp at h
        omega
      have hd : n / 36 < 36 ^ (L - 1) := by
        rw [Nat.div_lt_iff_lt_mul (by omega)]
        have : 36 ^ (L - 1) * 36 = 36 ^ L := by
          rw [← pow_succ]
          congr 1
          omega
        omega
      have := digitsRev_len fuel (n / 36) (L - 1) hd
      simp only [List.length_cons]
      omega

theorem bigIntToStr_valid (n : Int) (L : Nat) :
    (bigIntToStr n L).all isValidChar = true := by
  rw [bigIntToStr, List.all_append, Bool.and_eq_true]
  constructor
  · rw [List.all_eq_true]
    intro c hc
    rw [List.eq_of_mem_replicate hc]
    exact isValidChar_minChar
  · rw [List.all_eq_true]
    intro c hc
    rw [List.mem_reverse] at hc
    have := digitsRev_valid n.toNat n.toNat
    rw [List.all_eq_true] at this
    exact this c hc

theorem bigIntToStr_valNat (n : Int) (L : Nat) :
    valNat (bigIntToStr n L) = n.toNat := by
  rw [bigIntToStr, valNat_append, valNat_replicate_min]
  simp only [Nat.zero_mul, Nat.zero_add]
  exact digitsRev_val n.toNat n.toNat (le_refl _)

theorem bigIntToStr_length (n : Int) (L : Nat) (h : n.toNat < 36 ^ L) :
    (bigIntToStr n L).length = L := by
  rw [bigIntToStr, List.length_append, List.length_replicate, List.length_reverse]
  have := digitsRev_len n.toNat n.toNat L h
  omega

theorem bigIntToStr_canon (s : List Char) (hs : s.all isValidChar = true) :
    bigIntToStr (Int.ofNat (valNat s)) s.length = s := by
  have hv : (Int.ofNat (valNat s)).toNat = valNat s := rfl
  apply valNat_inj
  · rw [bigIntToStr_length _ _ (by rw [hv]; exact valNat_lt s)]
  · exact bigIntToStr_valid _ _
  · exact hs
  · rw [bigIntToStr_valNat]
    exact hv

theorem bigIntToStr_getLast (n : Int) (L : Nat) (hn : 0 < n.toNat) :
    (bigIntToStr n L).getLast? = some (toChar (n.toNat % 36)) := by
  rw [bigIntToStr]
  obtain ⟨f, hf⟩ : ∃ f, n.toNat = f + 1 := ⟨n.toNat - 1, by omega⟩
  rw [hf, digitsRevAux, if_neg (by omega : ¬ f + 1 = 0), List.reverse_cons, ← List.append_assoc]
  rw [List.getLast?_concat]

/-! ## Trimming trailing zeros -/

theorem dropZeros_decomp :
    ∀ (j : Nat) (l : List Char), ∃ k, l = List.replicate k minChar ++ dropZerosUpTo j l
  | 0, l => ⟨0, rfl⟩
  | j + 1, [] => ⟨0, rfl⟩
  | j + 1, c :: cs => by
    rw [dropZerosUpTo]
    split
    · rename_i hc
      obtain ⟨k, hk⟩ := dropZeros_decomp j cs
      refine ⟨k + 1, ?_⟩
      rw [List.replicate_succ, List.cons_append, hc, ← hk]
    · exact ⟨0, rfl⟩

theorem trim_decomp (s : List Char) (m : Nat) :
    ∃ k, s = trimTrailingZeros s m ++ List.replicate k minChar := by
  obtain ⟨k, hk⟩ := dropZeros_decomp (s.length - m) s.reverse
  refine ⟨k, ?_⟩
  rw [trimTrailingZeros, ← List.reverse_replicate, ← List.reverse_append, ← hk,
    List.reverse_reverse]

theorem trim_of_getLast_ne (s : List Char) (m : Nat) (c : Char)
    (hc : s.getLast? = some c) (hne : ¬ c = minChar) : trimTrailingZeros s m = s := by
  rw [trimTrailingZeros]
  have hh : s.reverse.head? = some c := by
    rw [List.head?_reverse]
    exact hc
  obtain ⟨t, ht⟩ : ∃ t, s.reverse = c :: t := by
    cases hrev : s.reverse with
    | nil =>
      rw [hrev] at hh
      exact absurd hh (by simp)
    | cons d u =>
      rw [hrev] at hh
      simp only [List.head?_cons, Option.some.injEq] at hh
      exact ⟨u, by rw [hh]⟩
  rw [ht]
  cases hj : s.length - m with
  | zero =>
    rw [dropZerosUpTo, ← ht, List.reverse_reverse]
  | succ j =>
    rw [dropZerosUpTo, if_neg hne, ← ht, List.reverse_reverse]

/-! ## The midpoint computation -/

theorem midpointStr_spec (lo hi : List Char) (hlo : lo.all isValidChar = true)
    (hhi : hi.all isValidChar = true)
    (hb : (valNat lo + valNat hi) / 2 < 36 ^ lo.length) :
    (midpointStr lo hi).length = lo.length ∧
      (midpointStr lo hi).all isValidChar = true ∧
      valNat (midpointStr lo hi) = (valNat lo + valNat hi) / 2 := by
  have hcast : strToBigInt lo + strToBigInt hi =
      ((valNat lo + valNat hi : Nat) : Int) := by
    rw [strToBigInt_eq_valNat lo hlo, strToBigInt_eq_valNat hi hhi]
    push_cast
    ring
  have hdiv : (strToBigInt lo + strToBigInt hi) / 2 =
      (((valNat lo + valNat hi) / 2 : Nat) : Int) := by
    rw [hcast, Int.natCast_div]
    rfl
  have htn : (((valNat lo + valNat hi) / 2 : Nat) : Int).toNat =
      (valNat lo + valNat hi) / 2 := Int.toNat_natCast _
  refine ⟨?_, ?_, ?_⟩
  · rw [midpointStr, hdiv]
    exact bigIntToStr_length _ _ (by rw [htn]; exact hb)
  · rw [midpointStr, hdiv]
    exact bigIntToStr_valid _ _
  · rw [midpointStr, hdiv, bigIntToStr_valNat, htn]

theorem betweenVal_lt_unfold (lower upper : List Char)
    (hlt : compareToVal lower upper = -1) :
    betweenVal lower upper =
      (if midpointStr (padTo lower upper.length) (padTo upper lower.length) =
          padTo lower upper.length then
        if (padTo lower upper.length).length + 1 > MaxLength then
          Except.error RankErr.exhausted
        else
          Except.ok (trimTrailingZeros
            (midpointStr (padTo lower upper.length ++ [minChar])
              (padTo upper lower.length ++ [minChar]))
            (min lower.length upper.length))
      else
        Except.ok (trimTrailingZeros
          (midpointStr (padTo lower upper.length) (padTo upper lower.length))
          (min lower.length upper.length))) := by
  have h0 : ¬ compareToVal lower upper = 0 := by
    rw [hlt]
    decide
  have h1 : ¬ compareToVal lower upper > 0 := by
    rw [hlt]
    decide
  unfold betweenVal
  rw [if_neg h0, if_neg h1]
  rfl

theorem midpointStr_getLast (lo hi : List Char) (hlo : lo.all isValidChar = true)
    (hhi : hi.all isValidChar = true) (hp : 0 < (valNat lo + valNat hi) / 2) :
    (midpointStr lo hi).getLast? = some (toChar (((valNat lo + valNat hi) / 2) % 36)) := by
  have hcast : strToBigInt lo + strToBigInt hi =
      ((valNat lo + valNat hi : Nat) : Int) := by
    rw [strToBigInt_eq_valNat lo hlo, strToBigInt_eq_valNat hi hhi]
    push_cast
    ring
  have hdiv : (strToBigInt lo + strToBigInt hi) / 2 =
      (((valNat lo + valNat hi) / 2 : Nat) : Int) := by
    rw [hcast, Int.natCast_div]
    rfl
  rw [midpointStr, hdiv]
  rw [bigIntToStr_getLast _ _ (by rw [Int.toNat_natCast]; exact hp), Int.toNat_natCast]

theorem valNat_singleton_min : valNat [minChar] = 0 := by decide

theorem betweenVal_lt_cases (lower upper : List Char)
    (hl : lower.all isValidChar = true) (hu : upper.all isValidChar = true)
    (hlt : compareToVal lower upper = -1) :
    ((valNat (padTo lower upper.length) + valNat (padTo upper lower.length)) / 2 =
        valNat (padTo lower upper.length) ∧
      MaxLength < max lower.length upper.length + 1 ∧
      betweenVal lower upper = Except.error RankErr.exhausted) ∨
    ((valNat (padTo lower upper.length) + valNat (padTo upper lower.length)) / 2 =
        valNat (padTo lower upper.length) ∧
      max lower.length upper.length + 1 ≤ MaxLength ∧
      betweenVal lower upper = Except.ok
        (midpointStr (padTo lower upper.length ++ [minChar])
          (padTo upper lower.length ++ [minChar]))) ∨
    (¬ (valNat (padTo lower upper.length) + valNat (padTo upper lower.length)) / 2 =
        valNat (padTo lower upper.length) ∧
      betweenVal lower upper = Except.ok
        (trimTrailingZeros
          (midpointStr (padTo lower upper.length) (padTo upper lower.length))
          (min lower.length upper.length))) := by
  set lo := padTo lower upper.length with hlo_def
  set hi := padTo upper lower.length with hhi_def
  set L := max lower.length upper.length with hL_def
  have hlolen : lo.length = L := length_padTo _ _
  have hhilen : hi.length = L := by
    rw [hhi_def, length_padTo, hL_def, Nat.max_comm]
  have hlov : lo.all isValidChar = true := padTo_valid lower upper.length hl
  have hhiv : hi.all isValidChar = true := padTo_valid upper lower.length hu
  have hvlt : valNat lo < valNat hi := by
    have h1 := (compareToVal_neg_iff lower upper hl hu
      (Nat.le_max_left lower.length upper.length)
      (Nat.le_max_right lower.length upper.length)).mp hlt
    rw [hlo_def, hhi_def, valNat_padTo_eq_sval lower upper,
      valNat_padTo_eq_sval upper lower, Nat.max_comm upper.length lower.length]
    exact h1
  have hvmhi : (valNat lo + valNat hi) / 2 < valNat hi := by
    rw [Nat.div_lt_iff_lt_mul (by omega : 0 < 2)]
    omega
  have hvmlt : (valNat lo + valNat hi) / 2 < 36 ^ L := by
    have := valNat_lt hi
    rw [hhilen] at this
    omega
  have hmspec := midpointStr_spec lo hi hlov hhiv (by rw [hlolen]; exact hvmlt)
  have hmideq : midpointStr lo hi = lo ↔
      (valNat lo + valNat hi) / 2 = valNat lo := by
    constructor
    · intro he
      rw [← hmspec.2.2, he]
    · intro hv
      exact valNat_inj _ _ (by rw [hmspec.1]) hmspec.2.1 hlov (by rw [hmspec.2.2, hv])
  rw [betweenVal_lt_unfold lower upper hlt]
  by_cases hc : midpointStr lo hi = lo
  · have hvm : (valNat lo + valNat hi) / 2 = valNat lo := hmideq.mp hc
    rw [if_pos hc]
    by_cases hlen : lo.length + 1 > MaxLength
    · rw [if_pos hlen]
      left
      refine ⟨hvm, ?_, rfl⟩
      rw [hlolen] at hlen
      omega
    · rw [if_neg hlen]
      right
      left
      refine ⟨hvm, by rw [hlolen] at hlen; omega, ?_⟩
      have hvhi : valNat hi = valNat lo + 1 := by
        by_contra hne
        have h3 : 2 * (valNat lo + 1) ≤ valNat lo + valNat hi := by omega
        have h4 : 2 * (valNat lo + 1) / 2 ≤ (valNat lo + valNat hi) / 2 :=
          Nat.div_le_div_right h3
        rw [Nat.mul_div_cancel_left _ (by omega : 0 < 2)] at h4
        omega
      have hlo2v : (lo ++ [minChar]).all isValidChar = true := by
        rw [List.all_append, hlov, Bool.true_and]
        decide
      have hhi2v : (hi ++ [minChar]).all isValidChar = true := by
        rw [List.all_append, hhiv, Bool.true_and]
        decide
      have hlo2val : valNat (lo ++ [minChar]) = 36 * valNat lo := by
        rw [valNat_append, valNat_singleton_min, List.length_singleton, pow_one]
        ring
      have hhi2val : valNat (hi ++ [minChar]) = 36 * valNat hi := by
        rw [valNat_append, valNat_singleton_min, List.length_singleton, pow_one]
        ring
      have hmean2 : (valNat (lo ++ [minChar]) + valNat (hi ++ [minChar])) / 2 =
          36 * valNat lo + 18 := by
        rw [hlo2val, hhi2val, hvhi]
        have : 36 * valNat lo + 36 * (valNat lo + 1) = 2 * (36 * valNat lo + 18) := by ring
        rw [this, Nat.mul_div_cancel_left _ (by omega : 0 < 2)]
      have hgl := midpointStr_getLast (lo ++ [minChar]) (hi ++ [minChar]) hlo2v hhi2v
        (by rw [hmean2]; omega)
      rw [hmean2] at hgl
      have hmod : (36 * valNat lo + 18) % 36 = 18 := by
        rw [Nat.add_comm, Nat.add_mul_mod_self_left]
      rw [hmod] at hgl
      have htr := trim_of_getLast_ne _ (min lower.length upper.length) _ hgl (by decide)
      rw [htr]
  · rw [if_neg hc]
    right
    right
    exact ⟨fun hv => hc (hmideq.mpr hv), rfl⟩

theorem betweenVal_lt_sandwich (lower upper m : List Char)
    (hl : lower.all isValidChar = true) (hu : upper.all isValidChar = true)
    (hlt : compareToVal lower upper = -1)
    (h : betweenVal lower upper = Except.ok m) :
    m.all isValidChar = true ∧ compareToVal lower m = -1 ∧ compareToVal m upper = -1 := by
  set lo := padTo lower upper.length with hlo_def
  set hi := padTo upper lower.length with hhi_def
  set L := max lower.length upper.length with hL_def
  have hlolen : lo.length = L := length_padTo _ _
  have hhilen : hi.length = L := by
    rw [hhi_def, length_padTo, hL_def, Nat.max_comm]
  have hlov : lo.all isValidChar = true := padTo_valid lower upper.length hl
  have hhiv : hi.all isValidChar = true := padTo_valid upper lower.length hu
  have hlosv : valNat lo = sval lower L := valNat_padTo_eq_sval lower upper
  have hhisv : valNat hi = sval upper L := by
    rw [hhi_def, valNat_padTo_eq_sval upper lower, hL_def, Nat.max_comm]
  have hvlt : valNat lo < valNat hi := by
    have h1 := (compareToVal_neg_iff lower upper hl hu
      (Nat.le_max_left lower.length upper.length)
      (Nat.le_max_right lower.length upper.length)).mp hlt
    rw [hlosv, hhisv]
    exact h1
  have hvmhi : (valNat lo + valNat hi) / 2 < valNat hi := by
    rw [Nat.div_lt_iff_lt_mul (by omega : 0 < 2)]
    omega
  have hvmlo : valNat lo ≤ (valNat lo + valNat hi) / 2 := by
    rw [Nat.le_div_iff_mul_le (by omega : 0 < 2)]
    omega
  have hvmlt : (valNat lo + valNat hi) / 2 < 36 ^ L := by
    have := valNat_lt hi
    rw [hhilen] at this
    omega
  rcases betweenVal_lt_cases lower upper hl hu hlt with
    ⟨hvm, hlen, he⟩ | ⟨hvm, hlen, he⟩ | ⟨hvm, he⟩
  · rw [he] at h
    exact absurd h (by simp)
  · rw [← hlo_def, ← hhi_def] at hvm he
    rw [he] at h
    injection h with hm
    have hvhi : valNat hi = valNat lo + 1 := by
      by_contra hne
      have h3 : 2 * (valNat lo + 1) ≤ valNat lo + valNat hi := by omega
      have h4 : 2 * (valNat lo + 1) / 2 ≤ (valNat lo + valNat hi) / 2 :=
        Nat.div_le_div_right h3
      rw [Nat.mul_div_cancel_left _ (by omega : 0 < 2)] at h4
      omega
    have hlo2v : (lo ++ [minChar]).all isValidChar = true := by
      rw [List.all_append, hlov, Bool.true_and]
      decide
    have hhi2v : (hi ++ [minChar]).all isValidChar = true := by
      rw [List.all_append, hhiv, Bool.true_and]
      decide
    have hlo2val : valNat (lo ++ [minChar]) = 36 * valNat lo := by
      rw [valNat_append, valNat_singleton_min, List.length_singleton, pow_one]
      ring
    have hhi2val : valNat (hi ++ [minChar]) = 36 * valNat hi := by
      rw [valNat_append, valNat_singleton_min, List.length_singleton, pow_one]
      ring
    have hmean2 : (valNat (lo ++ [minChar]) + valNat (hi ++ [minChar])) / 2 =
        36 * valNat lo + 18 := by
      rw [hlo2val, hhi2val, hvhi]
      have : 36 * valNat lo + 36 * (valNat lo + 1) = 2 * (36 * valNat lo + 18) := by ring
      rw [this, Nat.mul_div_cancel_left _ (by omega : 0 < 2)]
    have hb2 : (valNat (lo ++ [minChar]) + valNat (hi ++ [minChar])) / 2 <
        36 ^ (lo ++ [minChar]).length := by
      rw [hmean2, List.length_append, List.length_singleton, hlolen, pow_succ]
      have : valNat lo < 36 ^ L := by
        have := valNat_lt lo
        rw [hlolen] at this
        exact this
      nlinarith
    have hm2 := midpointStr_spec (lo ++ [minChar]) (hi ++ [minChar]) hlo2v hhi2v hb2
    have hmlen : m.length = L + 1 := by
      rw [← hm, hm2.1, List.length_append, List.length_singleton, hlolen]
    have hmvalid : m.all isValidChar = true := by
      rw [← hm]
      exact hm2.2.1
    have hmval : valNat m = 36 * valNat lo + 18 := by
      rw [← hm, hm2.2.2, hmean2]
    refine ⟨hmvalid, ?_, ?_⟩
    · rw [compareToVal_neg_iff lower m hl hmvalid
        (by omega : lower.length ≤ L + 1) (le_of_eq hmlen)]
      have hs1 : sval lower (L + 1) = valNat lo * 36 := by
        rw [sval_scale lower (Nat.le_max_left lower.length upper.length)
          (by omega : L ≤ L + 1), ← hlosv]
        simp [pow_one]
      have hs2 : sval m (L + 1) = valNat m := by
        unfold sval
        rw [hmlen]
        simp
      rw [hs1, hs2, hmval]
      omega
    · rw [compareToVal_neg_iff m upper hmvalid hu
        (le_of_eq hmlen) (by omega : upper.length ≤ L + 1)]
      have hs1 : sval upper (L + 1) = valNat hi * 36 := by
        rw [sval_scale upper (Nat.le_max_right lower.length upper.length)
          (by omega : L ≤ L + 1), ← hhisv]
        simp [pow_one]
      have hs2 : sval m (L + 1) = valNat m := by
        unfold sval
        rw [hmlen]
        simp
      rw [hs1, hs2, hmval, hvhi]
      omega
  · rw [← hlo_def, ← hhi_def] at hvm he
    have hmspec := midpointStr_spec lo hi hlov hhiv (by rw [hlolen]; exact hvmlt)
    rw [he] at h
    injection h with hm
    obtain ⟨k, hk⟩ := trim_decomp (midpointStr lo hi) (min lower.length upper.length)
    rw [hm] at hk
    have hmidval : valNat (midpointStr lo hi) = valNat m * 36 ^ k := by
      rw [hk, valNat_append, valNat_replicate_min, List.length_replicate]
      omega
    have hmlenk : m.length + k = L := by
      have := congrArg List.length hk
      rw [List.length_append, List.length_replicate, hmspec.1, hlolen] at this
      omega
    have hmvalid : m.all isValidChar = true := by
      have := hmspec.2.1
      rw [hk, List.all_append, Bool.and_eq_true] at this
      exact this.1
    have hsvm : sval m L = (valNat lo + valNat hi) / 2 := by
      unfold sval
      have : L - m.length = k := by omega
      rw [this, ← hmidval, hmspec.2.2]
    have hvmlo' : valNat lo < (valNat lo + valNat hi) / 2 := by omega
    refine ⟨hmvalid, ?_, ?_⟩
    · rw [compareToVal_neg_iff lower m hl hmvalid
        (Nat.le_max_left lower.length upper.length) (by omega : m.length ≤ L)]
      rw [hsvm, ← hlosv]
      omega
    · rw [compareToVal_neg_iff m upper hmvalid hu
        (by omega : m.length ≤ L) (Nat.le_max_right lower.length upper.length)]
      rw [hsvm, ← hhisv]
      omega

theorem strLt_self : ∀ s : List Char, strLt s s = false
  | [] => rfl
  | c :: t => by
    simp only [strLt, lt_irrefl, if_false]
    exact strLt_self t

theorem padTo_self (s : List Char) : padTo s s.length = s := by
  simp [padTo]

theorem compareToVal_self (s : List Char) : compareToVal s s = 0 := by
  unfold compareToVal normalize
  dsimp only
  rw [padTo_self, strLt_self]
  rfl

theorem replicate_valid (k : Nat) (c : Char) (h : isValidChar c = true) :
    (List.replicate k c).all isValidChar = true := by
  rw [List.all_eq_true]
  intro x hx
  rw [List.eq_of_mem_replicate hx]
  exact h

theorem valNat_singleton_mid : valNat [midChar] = 18 := by decide

theorem incrementVal_spec (s : List Char) (hs : s.all isValidChar = true)
    (hlt : valNat s + 1 < 36 ^ s.length) :
    (incrementVal s).length = s.length ∧ (incrementVal s).all isValidChar = true ∧
      valNat (incrementVal s) = valNat s + 1 := by
  have hcast : strToBigInt s + 1 = ((valNat s + 1 : Nat) : Int) := by
    rw [strToBigInt_eq_valNat s hs]
    push_cast
    ring
  unfold incrementVal
  rw [hcast]
  exact ⟨bigIntToStr_length _ _ (by rw [Int.toNat_natCast]; exact hlt),
    bigIntToStr_valid _ _, by rw [bigIntToStr_valNat, Int.toNat_natCast]⟩

theorem decrementVal_spec (s : List Char) (hs : s.all isValidChar = true)
    (hpos : 1 ≤ valNat s) :
    (decrementVal s).length = s.length ∧ (decrementVal s).all isValidChar = true ∧
      valNat (decrementVal s) = valNat s - 1 := by
  have hcast : strToBigInt s - 1 = ((valNat s - 1 : Nat) : Int) := by
    rw [strToBigInt_eq_valNat s hs, Nat.cast_sub hpos]
    push_cast
    ring
  have hnn : ¬ ((valNat s - 1 : Nat) : Int) < 0 := by
    omega
  unfold decrementVal
  dsimp only
  rw [hcast, if_neg hnn]
  have hb : valNat s - 1 < 36 ^ s.length := by
    have := valNat_lt s
    omega
  exact ⟨bigIntToStr_length _ _ (by rw [Int.toNat_natCast]; exact hb),
    bigIntToStr_valid _ _, by rw [bigIntToStr_valNat, Int.toNat_natCast]⟩

theorem betweenVal_gt_comm (a b : List Char) (h : compareToVal a b = 1) :
    betweenVal a b = betweenVal b a := by
  have hba : compareToVal b a = -1 := (compareToVal_one_iff_swap a b).mp h
  have h1 : ¬ compareToVal a b = 0 := by
    rw [h]
    decide
  have h2 : compareToVal a b > 0 := by
    rw [h]
    decide
  have h3 : ¬ compareToVal b a = 0 := by
    rw [hba]
    decide
  have h4 : ¬ compareToVal b a > 0 := by
    rw [hba]
    decide
  unfold betweenVal
  rw [if_neg h1, if_neg h3, if_pos h2, if_neg h4]

theorem rankCompareTo_eq_bucket (r s : LexoRank) (h : r.bucket = s.bucket) :
    rankCompareTo r s = compareToVal r.value s.value := by
  unfold rankCompareTo
  rw [h, if_neg (lt_irrefl _), if_neg (lt_irrefl _)]

end Gexorank

namespace Gexorank

/-- C1: for every pair of ranks `a ≠ b` in the same bucket whose values are
alphabet strings, whenever `Between(a, b)` succeeds its result compares
strictly greater than the smaller of `a` and `b` and strictly less than the
larger of `a` and `b` under `CompareTo`, and lies in the same bucket. -/
theorem C1_between_strict (a b m : LexoRank)
    (ha : a.value.all isValidChar = true) (hb : b.value.all isValidChar = true)
    (hbkt : a.bucket = b.bucket) (_hne : a ≠ b)
    (h : rankBetween a b = Except.ok m) :
    m.bucket = a.bucket ∧
      rankCompareTo (if rankCompareTo a b < 0 then a else b) m = -1 ∧
      rankCompareTo m (if rankCompareTo a b < 0 then b else a) = -1 := by
  unfold rankBetween at h
  rw [if_neg (by simp [hbkt])] at h
  cases hbv : betweenVal a.value b.value with
  | error e =>
    rw [hbv] at h
    exact absurd h (by simp)
  | ok mv =>
    rw [hbv] at h
    injection h with hm
    have hmb : m.bucket = a.bucket := by
      rw [← hm]
    have hmv : m.value = mv := by
      rw [← hm]
    have hcab := rankCompareTo_eq_bucket a b hbkt
    have hcne : ¬ compareToVal a.value b.value = 0 := by
      intro hc
      unfold betweenVal at hbv
      rw [if_pos hc] at hbv
      exact absurd hbv (by simp)
    rcases compareToVal_trichotomy a.value b.value with hc | hc | hc
    · have hs := betweenVal_lt_sandwich a.value b.value mv ha hb hc hbv
      have hneg : rankCompareTo a b < 0 := by
        rw [hcab, hc]
        decide
      rw [if_pos hneg, if_pos hneg]
      refine ⟨hmb, ?_, ?_⟩
      · rw [rankCompareTo_eq_bucket a m (by rw [hmb]), hmv]
        exact hs.2.1
      · rw [rankCompareTo_eq_bucket m b (by rw [hmb, hbkt]), hmv]
        exact hs.2.2
    · exact absurd hc hcne
    · have hcba : compareToVal b.value a.value = -1 :=
        (compareToVal_one_iff_swap a.value b.value).mp hc
      have hbv' : betweenVal b.value a.value = Except.ok mv := by
        rw [← betweenVal_gt_comm a.value b.value hc]
        exact hbv
      have hs := betweenVal_lt_sandwich b.value a.value mv hb ha hcba hbv'
      have hneg : ¬ rankCompareTo a b < 0 := by
        rw [hcab, hc]
        decide
      rw [if_neg hneg, if_neg hneg]
      refine ⟨hmb, ?_, ?_⟩
      · rw [rankCompareTo_eq_bucket b m (by rw [hmb, hbkt]), hmv]
        exact hs.2.1
      · rw [rankCompareTo_eq_bucket m a (by rw [hmb]), hmv]
        exact hs.2.2

/-- Witness for C1 at a concrete input: the midpoint of "0|aaaaaa" and
"0|zzzzzz". -/
theorem C1_between_strict_witness :
    (⟨Bucket.b0, "n55554".toList⟩ : LexoRank).bucket =
        (⟨Bucket.b0, "aaaaaa".toList⟩ : LexoRank).bucket ∧
      rankCompareTo
        (if rankCompareTo ⟨Bucket.b0, "aaaaaa".toList⟩ ⟨Bucket.b0, "zzzzzz".toList⟩ < 0 then
          (⟨Bucket.b0, "aaaaaa".toList⟩ : LexoRank) else ⟨Bucket.b0, "zzzzzz".toList⟩)
        ⟨Bucket.b0, "n55554".toList⟩ = -1 ∧
      rankCompareTo ⟨Bucket.b0, "n55554".toList⟩
        (if rankCompareTo ⟨Bucket.b0, "aaaaaa".toList⟩ ⟨Bucket.b0, "zzzzzz".toList⟩ < 0 then
          (⟨Bucket.b0, "zzzzzz".toList⟩ : LexoRank) else ⟨Bucket.b0, "aaaaaa".toList⟩) = -1 :=
  C1_between_strict ⟨Bucket.b0, "aaaaaa".toList⟩ ⟨Bucket.b0, "zzzzzz".toList⟩
    ⟨Bucket.b0, "n55554".toList⟩ (by decide) (by decide) rfl (by decide) (by decide)

/-- C9: GenPrev on a rank whose value is the all-minimum value of its length
returns the rank unchanged (floor saturation, not an error and not an
ordering violation). -/
theorem C9_genPrev_floor (r : LexoRank)
    (h : r.value = List.replicate r.value.length minChar) : genPrev r = r := by
  unfold genPrev
  rw [if_pos]
  rw [minValue, ← h]
  exact compareToVal_self r.value

/-- Witness for C9: the all-minimum rank "0|000" is its own GenPrev. -/
theorem C9_genPrev_floor_witness :
    genPrev ⟨Bucket.b0, "000".toList⟩ = ⟨Bucket.b0, "000".toList⟩ :=
  C9_genPrev_floor ⟨Bucket.b0, "000".toList⟩ (by decide)

/-- C3 counterexample: at the all-maximum value of length 128 (a valid rank
value within the maximum length), GenNext falls back to Increment, which
overflows to a longer string beginning with '1' that compares strictly LESS
than the receiver, contradicting the claim that GenNext is always strictly
greater. -/
theorem C3_counterexample :
    (List.replicate 128 maxChar).all isValidChar = true ∧
      (List.replicate 128 maxChar).length ≤ MaxLength ∧
      rankCompareTo (genNext ⟨Bucket.b0, List.replicate 128 maxChar⟩)
        ⟨Bucket.b0, List.replicate 128 maxChar⟩ = -1 :=
  ⟨by decide, by decide, by decide⟩

/-- C3 amended: GenNext(r) compares strictly greater than r and stays in r's
bucket for every rank r whose value is not the all-maximum value of length at
least MaxLength (at such values the Increment fallback overflows); GenPrev(r)
compares strictly less than r and stays in r's bucket for every rank r whose
value is not the all-minimum value of its length. -/
theorem C3_genNext_genPrev :
    (∀ r : LexoRank, r.value.all isValidChar = true →
      ¬ (MaxLength ≤ r.value.length ∧ r.value = List.replicate r.value.length maxChar) →
      rankCompareTo (genNext r) r = 1 ∧ (genNext r).bucket = r.bucket) ∧
    (∀ r : LexoRank, r.value.all isValidChar = true →
      ¬ r.value = List.replicate r.value.length minChar →
      rankCompareTo (genPrev r) r = -1 ∧ (genPrev r).bucket = r.bucket) := by
  constructor
  · intro r hv hnmax
    unfold genNext
    by_cases hlen : (r.value ++ [midChar]).length > MaxLength
    · rw [if_pos hlen]
      rw [List.length_append, List.length_singleton] at hlen
      have hne : ¬ r.value = List.replicate r.value.length maxChar := by
        intro hc
        exact hnmax ⟨by omega, hc⟩
      have hvne : valNat r.value ≠ 36 ^ r.value.length - 1 := by
        intro hc
        apply hne
        apply valNat_inj r.value (List.replicate r.value.length maxChar)
          (by rw [List.length_replicate]) hv
          (replicate_valid _ _ isValidChar_maxChar)
        rw [valNat_replicate_max]
        exact hc
      have hlt : valNat r.value + 1 < 36 ^ r.value.length := by
        have := valNat_lt r.value
        omega
      have hspec := incrementVal_spec r.value hv hlt
      constructor
      · show rankCompareTo ⟨r.bucket, incrementVal r.value⟩ r = 1
        rw [rankCompareTo_eq_bucket ⟨r.bucket, incrementVal r.value⟩ r rfl]
        show compareToVal (incrementVal r.value) r.value = 1
        rw [compareToVal_one_iff _ _ hspec.2.1 hv
          (le_of_eq hspec.1) (le_refl r.value.length)]
        unfold sval
        rw [hspec.1, hspec.2.2]
        simp only [Nat.sub_self, pow_zero, Nat.mul_one]
        omega
      · rfl
    · rw [if_neg hlen]
      have hvv : (r.value ++ [midChar]).all isValidChar = true := by
        rw [List.all_append, hv, Bool.true_and]
        decide
      constructor
      · show rankCompareTo ⟨r.bucket, r.value ++ [midChar]⟩ r = 1
        rw [rankCompareTo_eq_bucket ⟨r.bucket, r.value ++ [midChar]⟩ r rfl]
        show compareToVal (r.value ++ [midChar]) r.value = 1
        have hl2 : (r.value ++ [midChar]).length = r.value.length + 1 := by
          rw [List.length_append, List.length_singleton]
        rw [compareToVal_one_iff _ _ hvv hv (le_of_eq hl2)
          (by omega : r.value.length ≤ r.value.length + 1)]
        unfold sval
        rw [hl2, valNat_append, valNat_singleton_mid, List.length_singleton, pow_one]
        simp only [Nat.sub_self, pow_zero, Nat.mul_one]
        have : r.value.length + 1 - r.value.length = 1 := by omega
        rw [this, pow_one]
        omega
      · rfl
  · intro r hv hnmin
    unfold genPrev
    have hc0 : ¬ compareToVal r.value (minValue r.value.length) = 0 := by
      rw [minValue]
      rw [compareToVal_zero_iff_eq r.value _ (by rw [List.length_replicate]) hv
        (replicate_valid _ _ isValidChar_minChar)]
      exact hnmin
    rw [if_neg hc0]
    have hpos : 1 ≤ valNat r.value := by
      by_contra hc
      apply hnmin
      apply valNat_inj r.value (List.replicate r.value.length minChar)
        (by rw [List.length_replicate]) hv (replicate_valid _ _ isValidChar_minChar)
      rw [valNat_replicate_min]
      omega
    have hspec := decrementVal_spec r.value hv hpos
    by_cases hlen : (decrementVal r.value ++ [midChar]).length > MaxLength
    · rw [if_pos hlen]
      constructor
      · show rankCompareTo ⟨r.bucket, decrementVal r.value⟩ r = -1
        rw [rankCompareTo_eq_bucket ⟨r.bucket, decrementVal r.value⟩ r rfl]
        show compareToVal (decrementVal r.value) r.value = -1
        rw [compareToVal_neg_iff _ _ hspec.2.1 hv
          (le_of_eq hspec.1) (le_refl r.value.length)]
        unfold sval
        rw [hspec.1, hspec.2.2]
        simp only [Nat.sub_self, pow_zero, Nat.mul_one]
        omega
      · rfl
    · rw [if_neg hlen]
      have hvv : (decrementVal r.value ++ [midChar]).all isValidChar = true := by
        rw [List.all_append, hspec.2.1, Bool.true_and]
        decide
      constructor
      · show rankCompareTo ⟨r.bucket, decrementVal r.value ++ [midChar]⟩ r = -1
        rw [rankCompareTo_eq_bucket ⟨r.bucket, decrementVal r.value ++ [midChar]⟩ r rfl]
        show compareToVal (decrementVal r.value ++ [midChar]) r.value = -1
        have hl2 : (decrementVal r.value ++ [midChar]).length = r.value.length + 1 := by
          rw [List.length_append, List.length_singleton, hspec.1]
        rw [compareToVal_neg_iff _ _ hvv hv (le_of_eq hl2)
          (by omega : r.value.length ≤ r.value.length + 1)]
        unfold sval
        rw [hl2, valNat_append, valNat_singleton_mid, List.length_singleton, pow_one,
          hspec.2.2]
        simp only [Nat.sub_self, pow_zero, Nat.mul_one]
        have h1 : r.value.length + 1 - r.value.length = 1 := by omega
        rw [h1, pow_one]
        omega
      · rfl

theorem betweenVal_lt_exhaustion (lower upper : List Char)
    (hl : lower.all isValidChar = true) (hu : upper.all isValidChar = true)
    (hlt : compareToVal lower upper = -1) :
    (betweenVal lower upper = Except.error RankErr.exhausted ↔
      ((valNat (padTo lower upper.length) + valNat (padTo upper lower.length)) / 2 =
          valNat (padTo lower upper.length) ∧
        MaxLength < max lower.length upper.length + 1)) ∧
    ((valNat (padTo lower upper.length) + valNat (padTo upper lower.length)) / 2 =
        valNat (padTo lower upper.length) →
      max lower.length upper.length + 1 ≤ MaxLength →
      betweenVal lower upper = Except.ok
        (midpointStr (padTo lower upper.length ++ [minChar])
          (padTo upper lower.length ++ [minChar]))) := by
  rcases betweenVal_lt_cases lower upper hl hu hlt with
    ⟨hvm, hlen, he⟩ | ⟨hvm, hlen, he⟩ | ⟨hvm, he⟩
  · refine ⟨⟨fun _ => ⟨hvm, hlen⟩, fun _ => he⟩, ?_⟩
    intro _ h2
    omega
  · constructor
    · constructor
      · intro hc
        rw [he] at hc
        exact absurd hc (by simp)
      · intro hc
        omega
    · intro _ _
      exact he
  · constructor
    · constructor
      · intro hc
        rw [he] at hc
        exact absurd hc (by simp)
      · intro hc
        exact absurd hc.1 hvm
    · intro h1 _
      exact absurd h1 hvm

theorem padded_lt_of_cmp_neg (a b : List Char) (ha : a.all isValidChar = true)
    (hb : b.all isValidChar = true) (h : compareToVal a b = -1) :
    valNat (padTo a b.length) < valNat (padTo b a.length) := by
  have h1 := (compareToVal_neg_iff a b ha hb
    (Nat.le_max_left a.length b.length) (Nat.le_max_right a.length b.length)).mp h
  rw [valNat_padTo_eq_sval a b, valNat_padTo_eq_sval b a,
    Nat.max_comm b.length a.length]
  exact h1

/-- C2: for unequal rank values, Between returns the Exhausted error iff the
floor mean of the two encoded base36 integers (at the common right-padded
length) equals the lower value and that common length plus one exceeds
MaxLength; otherwise, when the mean equals the lower value, both operands are
extended by one minimum digit and the recomputed midpoint is returned. -/
theorem C2_between_exhaustion (a b : List Char)
    (ha : a.all isValidChar = true) (hb : b.all isValidChar = true)
    (hne : ¬ compareToVal a b = 0) :
    (betweenVal a b = Except.error RankErr.exhausted ↔
      ((valNat (padTo a b.length) + valNat (padTo b a.length)) / 2 =
          min (valNat (padTo a b.length)) (valNat (padTo b a.length)) ∧
        MaxLength < max a.length b.length + 1)) ∧
    ((valNat (padTo a b.length) + valNat (padTo b a.length)) / 2 =
        min (valNat (padTo a b.length)) (valNat (padTo b a.length)) →
      max a.length b.length + 1 ≤ MaxLength →
      betweenVal a b = Except.ok
        (midpointStr
          ((if compareToVal a b > 0 then padTo b a.length else padTo a b.length) ++
            [minChar])
          ((if compareToVal a b > 0 then padTo a b.length else padTo b a.length) ++
            [minChar]))) := by
  rcases compareToVal_trichotomy a b with hc | hc | hc
  · have hif : ¬ compareToVal a b > 0 := by
      rw [hc]
      decide
    rw [if_neg hif, if_neg hif]
    have hvlt := padded_lt_of_cmp_neg a b ha hb hc
    rw [Nat.min_eq_left (le_of_lt hvlt)]
    exact betweenVal_lt_exhaustion a b ha hb hc
  · exact absurd hc hne
  · have hif : compareToVal a b > 0 := by
      rw [hc]
      decide
    rw [if_pos hif, if_pos hif]
    have hba : compareToVal b a = -1 := (compareToVal_one_iff_swap a b).mp hc
    have hvlt := padded_lt_of_cmp_neg b a hb ha hba
    rw [betweenVal_gt_comm a b hc,
      Nat.add_comm (valNat (padTo a b.length)) (valNat (padTo b a.length)),
      Nat.max_comm a.length b.length,
      Nat.min_eq_right (le_of_lt hvlt)]
    exact betweenVal_lt_exhaustion b a hb ha hba

/-- Witness for C2: two adjacent values at length 128 exhaust the precision. -/
theorem C2_between_exhaustion_witness :
    betweenVal (List.replicate 128 minChar) (List.replicate 127 minChar ++ ['1']) =
      Except.error RankErr.exhausted :=
  (C2_between_exhaustion (List.replicate 128 minChar)
      (List.replicate 127 minChar ++ ['1']) (by decide) (by decide) (by decide)).1.mpr
    ⟨by decide, by decide⟩

/-- Witness for the amended C3 at the rank "0|ii". -/
theorem C3_genNext_genPrev_witness :
    (rankCompareTo (genNext ⟨Bucket.b0, "ii".toList⟩) ⟨Bucket.b0, "ii".toList⟩ = 1 ∧
      (genNext ⟨Bucket.b0, "ii".toList⟩).bucket = Bucket.b0) ∧
    (rankCompareTo (genPrev ⟨Bucket.b0, "ii".toList⟩) ⟨Bucket.b0, "ii".toList⟩ = -1 ∧
      (genPrev ⟨Bucket.b0, "ii".toList⟩).bucket = Bucket.b0) :=
  ⟨C3_genNext_genPrev.1 ⟨Bucket.b0, "ii".toList⟩ (by decide) (by decide),
    C3_genNext_genPrev.2 ⟨Bucket.b0, "ii".toList⟩ (by decide) (by decide)⟩

/-! ## Parsing -/

theorem parse_split (s x y : List Char) (hx : splitOnce s = some (x, y)) :
    parse s =
      (match parseBucket x with
      | Except.error e => Except.error e
      | Except.ok b =>
        match parseRankValue y with
        | Except.error e => Except.error e
        | Except.ok v => Except.ok ⟨b, v⟩) := by
  unfold parse
  rw [hx]

theorem parse_split_ok (s x y : List Char) (b : Bucket) (v : List Char)
    (hx : splitOnce s = some (x, y)) (hb : parseBucket x = Except.ok b)
    (hv : parseRankValue y = Except.ok v) : parse s = Except.ok ⟨b, v⟩ := by
  rw [parse_split s x y hx, hb, hv]

theorem parseRankValue_ok (v : List Char) (hv : v ≠ [])
    (hvv : v.all isValidChar = true) : parseRankValue v = Except.ok v := by
  rw [parseRankValue, if_neg (fun h => hv (List.length_eq_zero.mp h)),
    if_pos (show validate v = true from hvv)]

theorem parseRankValue_ok_eq (y v : List Char) (h : parseRankValue y = Except.ok v) :
    v = y := by
  unfold parseRankValue at h
  split at h
  · exact absurd h (by simp)
  · split at h
    · injection h with h
      rw [h]
    · exact absurd h (by simp)

theorem parseRankValue_error_eq (y : List Char) (e : RankErr)
    (h : parseRankValue y = Except.error e) : e = RankErr.invalidValue := by
  unfold parseRankValue at h
  split at h
  · injection h with h
    rw [h]
  · split at h
    · exact absurd h (by simp)
    · injection h with h
      rw [h]

theorem parseBucket_error_eq (x : List Char) (e : RankErr)
    (h : parseBucket x = Except.error e) : e = RankErr.invalidBucket := by
  unfold parseBucket at h
  split at h
  · exact absurd h (by simp)
  · split at h
    · exact absurd h (by simp)
    · split at h
      · exact absurd h (by simp)
      · injection h with h
        rw [h]

theorem parseRankValue_sep (y : List Char) (h : '|' ∈ y) :
    parseRankValue y = Except.error RankErr.invalidValue := by
  unfold parseRankValue
  split
  · rfl
  · rw [if_neg]
    intro hc
    have := List.all_eq_true.mp hc '|' h
    rw [sep_not_valid] at this
    exact absurd this (by simp)

theorem splitOnce_eq_none : ∀ s : List Char, splitOnce s = none ↔ ¬ '|' ∈ s
  | [] => by simp [splitOnce]
  | c :: cs => by
    rw [splitOnce]
    by_cases hc : c = '|'
    · subst hc
      simp
    · rw [if_neg hc]
      have ih := splitOnce_eq_none cs
      cases hs : splitOnce cs with
      | none =>
        rw [hs] at ih
        simp only [List.mem_cons]
        constructor
        · intro _
          rintro (h | h)
          · exact hc h.symm
          · exact (ih.mp rfl) h
        · intro _
          trivial
      | some p =>
        rw [hs] at ih
        simp only [List.mem_cons]
        constructor
        · intro h
          exact absurd h (by simp)
        · intro h
          exfalso
          apply h
          right
          by_contra hm
          exact absurd (ih.mpr hm) (by simp)

theorem splitOnce_decomp : ∀ s x y : List Char, splitOnce s = some (x, y) →
    s = x ++ '|' :: y ∧ ¬ '|' ∈ x
  | [], x, y, h => by simp [splitOnce] at h
  | c :: cs, x, y, h => by
    rw [splitOnce] at h
    by_cases hc : c = '|'
    · rw [if_pos hc] at h
      injection h with h
      injection h with h1 h2
      subst hc
      rw [← h1, ← h2]
      simp
    · rw [if_neg hc] at h
      cases hs : splitOnce cs with
      | none =>
        rw [hs] at h
        exact absurd h (by simp)
      | some p =>
        rw [hs] at h
        injection h with h
        injection h with h1 h2
        obtain ⟨hd, hm⟩ := splitOnce_decomp cs p.1 p.2 (by rw [hs])
        subst h2
        constructor
        · rw [← h1, List.cons_append, ← hd]
        · rw [← h1]
          simp only [List.mem_cons]
          rintro (hh | hh)
          · exact hc hh.symm
          · exact hm hh

/-- C4 counterexample: ParseRankValue accepts a 129-symbol string, exceeding
the claimed maximum length of 128 (the Go code performs no length check). -/
theorem C4_counterexample :
    parseRankValue (List.replicate 129 'a') = Except.ok (List.replicate 129 'a') ∧
      MaxLength < (List.replicate 129 'a').length :=
  ⟨by decide, by decide⟩

/-- C4 amended: ParseRankValue rejects the empty string and any string
containing a non-alphabet symbol, and accepts every non-empty all-alphabet
string regardless of its length (no maximum-length check is performed). -/
theorem C4_parseRankValue (s : List Char) :
    (parseRankValue s = Except.ok s ↔ (s ≠ [] ∧ s.all isValidChar = true)) ∧
      (parseRankValue s = Except.error RankErr.invalidValue ↔
        ¬ (s ≠ [] ∧ s.all isValidChar = true)) := by
  unfold parseRankValue
  by_cases h0 : s.length = 0
  · rw [if_pos h0]
    have hs : s = [] := List.length_eq_zero.mp h0
    subst hs
    constructor
    · constructor
      · intro h
        exact absurd h (by simp)
      · intro h
        exact absurd rfl h.1
    · constructor
      · intro _ h
        exact h.1 rfl
      · intro _
        rfl
  · rw [if_neg h0]
    have hs : ¬ s = [] := fun hc => h0 (by rw [hc]; rfl)
    by_cases hv : validate s = true
    · rw [if_pos hv]
      constructor
      · constructor
        · intro _
          exact ⟨hs, hv⟩
        · intro _
          rfl
      · constructor
        · intro h
          exact absurd h (by simp)
        · intro h
          exact absurd ⟨hs, hv⟩ h
    · rw [if_neg hv]
      constructor
      · constructor
        · intro h
          exact absurd h (by simp)
        · intro h
          exact absurd h.2 hv
      · constructor
        · intro _ h
          exact hv h.2
        · intro _
          rfl

/-- C5: every valid wire string (bucket digit in 0..2, one separator, a
non-empty alphabet value) parses successfully and formats back to itself. -/
theorem C5_parse_format_roundtrip (d : Char) (v : List Char)
    (hd : d = '0' ∨ d = '1' ∨ d = '2') (hv : v ≠ [])
    (hvv : v.all isValidChar = true) :
    ∃ r, parse (d :: '|' :: v) = Except.ok r ∧ rankToString r = d :: '|' :: v := by
  have hpv : parseRankValue v = Except.ok v := parseRankValue_ok v hv hvv
  rcases hd with rfl | rfl | rfl
  · exact ⟨⟨Bucket.b0, v⟩, parse_split_ok _ ['0'] v Bucket.b0 v rfl rfl hpv, rfl⟩
  · exact ⟨⟨Bucket.b1, v⟩, parse_split_ok _ ['1'] v Bucket.b1 v rfl rfl hpv, rfl⟩
  · exact ⟨⟨Bucket.b2, v⟩, parse_split_ok _ ['2'] v Bucket.b2 v rfl rfl hpv, rfl⟩

/-- Witness for C5 at the wire string "0|abc". -/
theorem C5_parse_format_roundtrip_witness :
    ∃ r, parse ('0' :: '|' :: "abc".toList) = Except.ok r ∧
      rankToString r = '0' :: '|' :: "abc".toList :=
  C5_parse_format_roundtrip '0' "abc".toList (Or.inl rfl) (by decide) (by decide)

/-- C8 counterexample: with two separators the error is InvalidValue (the
second separator lands in the value part), not InvalidFormat as claimed. -/
theorem C8_counterexample :
    parse "0|a|b".toList = Except.error RankErr.invalidValue ∧
      RankErr.invalidValue ≠ RankErr.invalidFormat :=
  ⟨by decide, by decide⟩

/-- C8 amended: Parse fails with InvalidFormat exactly when the separator is
missing; otherwise it splits at the first separator and delegates to bucket
and value parsing, propagating their errors; any further separators land in
the value part (where the separator is not an alphabet symbol), so no string
with two or more separators parses successfully. -/
theorem C8_parse_separator :
    (∀ s : List Char, parse s = Except.error RankErr.invalidFormat ↔ ¬ '|' ∈ s) ∧
      (∀ s x y : List Char, splitOnce s = some (x, y) →
        parse s =
          (match parseBucket x with
          | Except.error e => Except.error e
          | Except.ok b =>
            match parseRankValue y with
            | Except.error e => Except.error e
            | Except.ok v => Except.ok ⟨b, v⟩)) ∧
      (∀ s : List Char, 2 ≤ s.count '|' → ∀ r, ¬ parse s = Except.ok r) := by
  refine ⟨?_, fun s x y hx => parse_split s x y hx, ?_⟩
  · intro s
    cases hs : splitOnce s with
    | none =>
      rw [← splitOnce_eq_none s, hs]
      unfold parse
      rw [hs]
      simp
    | some p =>
      have hmem : '|' ∈ s := by
        by_contra hm
        rw [← splitOnce_eq_none s] at hm
        rw [hs] at hm
        exact absurd hm (by simp)
      rw [parse_split s p.1 p.2 (by rw [hs])]
      constructor
      · intro h
        cases hbk : parseBucket p.1 with
        | error e =>
          rw [hbk] at h
          dsimp only at h
          injection h with h
          rw [parseBucket_error_eq p.1 e hbk] at h
          exact absurd h (by decide)
        | ok b =>
          rw [hbk] at h
          dsimp only at h
          cases hpv : parseRankValue p.2 with
          | error e =>
            rw [hpv] at h
            injection h with h
            rw [parseRankValue_error_eq p.2 e hpv] at h
            exact absurd h (by decide)
          | ok v =>
            rw [hpv] at h
            exact absurd h (by simp)
      · intro h
        exact absurd hmem h
  · intro s hcount r
    cases hs : splitOnce s with
    | none =>
      unfold parse
      rw [hs]
      simp
    | some p =>
      obtain ⟨hdec, hnmem⟩ := splitOnce_decomp s p.1 p.2 (by rw [hs])
      have hy : '|' ∈ p.2 := by
        rw [hdec, List.count_append] at hcount
        rw [List.count_eq_zero.mpr hnmem] at hcount
        have : ('|' :: p.2).count '|' = p.2.count '|' + 1 := List.count_cons_self '|' p.2
        rw [this] at hcount
        exact List.count_pos_iff.mp (by omega)
      rw [parse_split s p.1 p.2 (by rw [hs])]
      cases hbk : parseBucket p.1 with
      | error e =>
        simp
      | ok b =>
        rw [parseRankValue_sep p.2 hy]
        simp

/-- Witness for the amended C8: "0iiiiii" has no separator and fails with
InvalidFormat. -/
theorem C8_parse_separator_witness :
    parse "0iiiiii".toList = Except.error RankErr.invalidFormat :=
  (C8_parse_separator.1 "0iiiiii".toList).mpr (by decide)

/-- C10: Parse stores the rank value exactly as written (no trimming, no
canonicalization); consequently "0|aaa" and "0|aaa000" parse to ranks that
compare equal under CompareTo yet format back to different strings. -/
theorem C10_parse_stores_exact :
    (∀ (s x y : List Char) (r : LexoRank), splitOnce s = some (x, y) →
      parse s = Except.ok r → r.value = y) ∧
      parse "0|aaa".toList = Except.ok ⟨Bucket.b0, "aaa".toList⟩ ∧
      parse "0|aaa000".toList = Except.ok ⟨Bucket.b0, "aaa000".toList⟩ ∧
      rankCompareTo ⟨Bucket.b0, "aaa".toList⟩ ⟨Bucket.b0, "aaa000".toList⟩ = 0 ∧
      ¬ rankToString ⟨Bucket.b0, "aaa".toList⟩ =
        rankToString ⟨Bucket.b0, "aaa000".toList⟩ := by
  refine ⟨?_, by decide, by decide, by decide, by decide⟩
  intro s x y r hx h
  rw [parse_split s x y hx] at h
  cases hbk : parseBucket x with
  | error e =>
    rw [hbk] at h
    exact absurd h (by simp)
  | ok b =>
    rw [hbk] at h
    dsimp only at h
    cases hpv : parseRankValue y with
    | error e =>
      rw [hpv] at h
      exact absurd h (by simp)
    | ok v =>
      rw [hpv] at h
      injection h with h
      rw [← h]
      exact parseRankValue_ok_eq y v hpv

/-- Witness for C10: parsing "0|aa" stores exactly "aa". -/
theorem C10_parse_stores_exact_witness :
    (⟨Bucket.b0, "aa".toList⟩ : LexoRank).value = "aa".toList :=
  C10_parse_stores_exact.1 "0|aa".toList ['0'] "aa".toList ⟨Bucket.b0, "aa".toList⟩
    (by decide) (by decide)

/-! ## The insert retry protocol -/

theorem insertLoop_all_fail {ε : Type}
    (nb : Nat → Except ε (Option LexoRank × Option LexoRank))
    (ins : Nat → LexoRank → Option ε)
    (pq : Nat → Option LexoRank × Option LexoRank)
    (hnb : ∀ i, nb i = Except.ok (pq i)) (rk : Nat → LexoRank)
    (hgen : ∀ i, genBetween (pq i).1 (pq i).2 = Except.ok (rk i))
    (e : Nat → ε) (hins : ∀ i r, ins i r = some (e i)) :
    ∀ (fuel i : Nat) (last : Option ε), 1 ≤ fuel →
      insertLoop nb ins i last fuel =
        InsertOutcome.retriesExceeded (some (e (i + fuel - 1)))
  | 0, i, last, h => by omega
  | fuel + 1, i, last, _ => by
    show (match nb i with
      | Except.error err => InsertOutcome.neighborsFailed err
      | Except.ok pr =>
        match genBetween pr.1 pr.2 with
        | Except.error err => InsertOutcome.genFailed err
        | Except.ok r =>
          match ins i r with
          | some err => insertLoop nb ins (i + 1) (some err) fuel
          | none => InsertOutcome.inserted r i) = _
    rw [hnb i]
    dsimp only
    rw [hgen i]
    dsimp only
    rw [hins i (rk i)]
    cases fuel with
    | zero =>
      show InsertOutcome.retriesExceeded (some (e i)) = _
      have : i + (0 + 1) - 1 = i := by omega
      rw [this]
    | succ g =>
      have hrec := insertLoop_all_fail nb ins pq hnb rk hgen e hins (g + 1) (i + 1)
        (some (e i)) (by omega)
      dsimp only
      rw [hrec]
      have : i + 1 + (g + 1) - 1 = i + (g + 1 + 1) - 1 := by omega
      rw [this]

theorem insertLoop_succeeds {ε : Type}
    (nb : Nat → Except ε (Option LexoRank × Option LexoRank))
    (ins : Nat → LexoRank → Option ε)
    (pq : Nat → Option LexoRank × Option LexoRank)
    (hnb : ∀ i, nb i = Except.ok (pq i)) (rk : Nat → LexoRank)
    (hgen : ∀ i, genBetween (pq i).1 (pq i).2 = Except.ok (rk i))
    (e : Nat → ε) (k : Nat)
    (hfail : ∀ j, j < k → ∀ r, ins j r = some (e j))
    (hsucc : ∀ r, ins k r = none) :
    ∀ (fuel i : Nat) (last : Option ε), i ≤ k → k < i + fuel →
      insertLoop nb ins i last fuel = InsertOutcome.inserted (rk k) k
  | 0, i, last, hik, hk => by omega
  | fuel + 1, i, last, hik, hk => by
    show (match nb i with
      | Except.error err => InsertOutcome.neighborsFailed err
      | Except.ok pr =>
        match genBetween pr.1 pr.2 with
        | Except.error err => InsertOutcome.genFailed err
        | Except.ok r =>
          match ins i r with
          | some err => insertLoop nb ins (i + 1) (some err) fuel
          | none => InsertOutcome.inserted r i) = _
    rw [hnb i]
    dsimp only
    rw [hgen i]
    dsimp only
    by_cases hik' : i = k
    · subst hik'
      rw [hsucc (rk i)]
    · rw [hfail i (by omega) (rk i)]
      exact insertLoop_succeeds nb ins pq hnb rk hgen e k hfail hsucc fuel (i + 1)
        (some (e i)) (by omega) (by omega)

/-- C7: with neighbor reads and rank generation succeeding on every attempt,
an insert callback that fails on its first k attempts and succeeds on attempt
k (with k below the coerced retry bound) makes InsertBetween return the k-th
computed rank with recorded attempt index k — that is, after exactly k+1
neighbor reads and k+1 insert attempts; an insert callback that always fails
makes InsertBetween return MaxRetriesExceeded wrapping the failure of the
last attempt, after exactly the coerced maxRetries attempts. -/
theorem C7_insertBetween_retry {ε : Type}
    (nb : Nat → Except ε (Option LexoRank × Option LexoRank))
    (pq : Nat → Option LexoRank × Option LexoRank)
    (hnb : ∀ i, nb i = Except.ok (pq i))
    (rk : Nat → LexoRank)
    (hgen : ∀ i, genBetween (pq i).1 (pq i).2 = Except.ok (rk i))
    (maxRetries : Int) :
    (∀ (ins : Nat → LexoRank → Option ε) (e : Nat → ε) (k : Nat),
      (∀ j, j < k → ∀ r, ins j r = some (e j)) → (∀ r, ins k r = none) →
      (k : Int) < (if maxRetries < 1 then 1 else maxRetries) →
      insertBetween nb ins maxRetries = InsertOutcome.inserted (rk k) k) ∧
    (∀ (ins : Nat → LexoRank → Option ε) (e : Nat → ε),
      (∀ i r, ins i r = some (e i)) →
      insertBetween nb ins maxRetries =
        InsertOutcome.retriesExceeded
          (some (e ((if maxRetries < 1 then 1 else maxRetries).toNat - 1)))) := by
  have hm1 : 1 ≤ (if maxRetries < 1 then 1 else maxRetries).toNat := by
    split
    · decide
    · omega
  constructor
  · intro ins e k hfail hsucc hk
    have hkm : k < (if maxRetries < 1 then 1 else maxRetries).toNat := by
      rcases hik : (maxRetries < 1 : Bool) with _ | _
      · simp only [decide_eq_false_iff_not] at hik
        rw [if_neg hik] at hk ⊢
        omega
      · simp only [decide_eq_true_eq] at hik
        rw [if_pos hik] at hk ⊢
        omega
    unfold insertBetween
    exact insertLoop_succeeds nb ins pq hnb rk hgen e k hfail hsucc _ 0 none
      (by omega) (by omega)
  · intro ins e hins
    unfold insertBetween
    rw [insertLoop_all_fail nb ins pq hnb rk hgen e hins _ 0 none hm1]
    have : 0 + (if maxRetries < 1 then 1 else maxRetries).toNat - 1 =
        (if maxRetries < 1 then 1 else maxRetries).toNat - 1 := by omega
    rw [this]

/-- Witness for C7: an insert stub failing once then succeeding returns the
second computed rank at attempt index 1; an always-failing stub exhausts the
3 attempts and wraps the last failure. -/
theorem C7_insertBetween_retry_witness :
    insertBetween (fun _ => Except.ok ((none, none) :
        Option LexoRank × Option LexoRank))
      (fun i _ => if i < 1 then some 7 else none) 3 =
      InsertOutcome.inserted initialRank 1 ∧
    insertBetween (fun _ => Except.ok ((none, none) :
        Option LexoRank × Option LexoRank))
      (fun _ _ => some (9 : Nat)) 3 =
      InsertOutcome.retriesExceeded (some 9) :=
  ⟨(C7_insertBetween_retry (fun _ => Except.ok ((none, none) :
        Option LexoRank × Option LexoRank))
      (fun _ => (none, none)) (fun _ => rfl) (fun _ => initialRank) (fun _ => rfl) 3).1
      (fun i _ => if i < 1 then some 7 else none) (fun _ => 7) 1
      (fun j hj _ => by dsimp only; rw [if_pos hj])
      (fun _ => by dsimp only; rw [if_neg (by omega : ¬ (1 : Nat) < 1)]) (by decide),
    (C7_insertBetween_retry (fun _ => Except.ok ((none, none) :
        Option LexoRank × Option LexoRank))
      (fun _ => (none, none)) (fun _ => rfl) (fun _ => initialRank) (fun _ => rfl) 3).2
      (fun _ _ => some 9) (fun _ => 9) (fun _ _ => rfl)⟩

/-! ## Rebalance -/

theorem C6_input_ascending :
    List.Pairwise (fun x y => rankCompareTo x y = -1)
      ((List.range (36 ^ 8 - 1)).map
        (fun i => (⟨Bucket.b0, bigIntToStr (Int.ofNat i) 9⟩ : LexoRank))) := by
  rw [List.pairwise_map]
  apply (List.pairwise_lt_range _).imp_of_mem
  intro a b ha hb hab
  rw [List.mem_range] at ha hb
  have hbound : (36 : Nat) ^ 8 - 1 ≤ 36 ^ 9 := by norm_num
  have hA : (Int.ofNat a).toNat < 36 ^ 9 := by
    show a < 36 ^ 9
    omega
  have hB : (Int.ofNat b).toNat < 36 ^ 9 := by
    show b < 36 ^ 9
    omega
  rw [rankCompareTo_eq_bucket ⟨Bucket.b0, bigIntToStr (Int.ofNat a) 9⟩
    ⟨Bucket.b0, bigIntToStr (Int.ofNat b) 9⟩ rfl]
  show compareToVal (bigIntToStr (Int.ofNat a) 9) (bigIntToStr (Int.ofNat b) 9) = -1
  rw [compareToVal_neg_iff _ _ (bigIntToStr_valid _ _) (bigIntToStr_valid _ _)
    (le_of_eq (bigIntToStr_length _ _ hA)) (le_of_eq (bigIntToStr_length _ _ hB))]
  unfold sval
  rw [bigIntToStr_length _ _ hA, bigIntToStr_length _ _ hB,
    bigIntToStr_valNat, bigIntToStr_valNat]
  simp only [Nat.sub_self, pow_zero, Nat.mul_one]
  exact hab

/-- C6 counterexample: for a strictly ascending input of n = 36^8 - 1 ranks,
the step is zero at the default length and remains zero after the length-8
fallback, so Rebalance collapses every output to the all-minimum value
"000000": the output is not strictly ascending and its entries equal the
absolute minimum boundary, contradicting the claim for this n. -/
theorem C6_counterexample :
    List.Pairwise (fun x y => rankCompareTo x y = -1)
      ((List.range (36 ^ 8 - 1)).map
        (fun i => (⟨Bucket.b0, bigIntToStr (Int.ofNat i) 9⟩ : LexoRank))) ∧
      2 ≤ ((List.range (36 ^ 8 - 1)).map
        (fun i => (⟨Bucket.b0, bigIntToStr (Int.ofNat i) 9⟩ : LexoRank))).length ∧
      (rebalance
        ((List.range (36 ^ 8 - 1)).map
          (fun i => (⟨Bucket.b0, bigIntToStr (Int.ofNat i) 9⟩ : LexoRank)))
        Bucket.b0).take 2 =
        [⟨Bucket.b0, List.replicate 6 '0'⟩, ⟨Bucket.b0, List.replicate 6 '0'⟩] ∧
      (⟨Bucket.b0, List.replicate 6 '0'⟩ : LexoRank).value = minValue DefaultLength := by
  refine ⟨C6_input_ascending, ?_, ?_, by decide⟩
  · rw [List.length_map, List.length_range]
    norm_num
  · have hlen : ((List.range (36 ^ 8 - 1)).map
        (fun i => (⟨Bucket.b0, bigIntToStr (Int.ofNat i) 9⟩ : LexoRank))).length =
        36 ^ 8 - 1 := by
      rw [List.length_map, List.length_range]
    unfold rebalance
    rw [hlen]
    dsimp only
    rw [if_neg (by norm_num : ¬ (36 : Nat) ^ 8 - 1 = 0)]
    rw [if_pos (by decide :
      (strToBigInt (List.replicate DefaultLength maxChar) -
        strToBigInt (List.replicate DefaultLength minChar)) /
          ((36 ^ 8 - 1 + 1 : Nat) : Int) = 0)]
    rw [← List.map_take, List.take_range,
      (by norm_num : min 2 (36 ^ 8 - 1) = 2)]
    decide

/-- C6 amended: empty input yields empty output; and for every sorted input
of n ranks with 1 ≤ n ≤ 36^6 - 2 (so the step at the default length is
positive) and every target bucket B, Rebalance returns exactly n ranks, each
in bucket B, strictly ascending (hence order-isomorphic to the input), the
i-th (0-indexed) output encoding min + step*(i+1) with
step = (max - min) / (n+1) by floor division, and no output equal to the
absolute minimum or maximum boundary.  (For larger n the step can be zero
even after the length-widening fallback and the outputs collapse.) -/
theorem C6_rebalance :
    (∀ b : Bucket, rebalance [] b = []) ∧
    (∀ (ranks : List LexoRank) (b : Bucket),
      List.Pairwise (fun x y => rankCompareTo x y ≤ 0) ranks →
      1 ≤ ranks.length → ranks.length ≤ 36 ^ 6 - 2 →
      (rebalance ranks b).length = ranks.length ∧
      (∀ r ∈ rebalance ranks b, r.bucket = b) ∧
      List.Pairwise (fun x y => rankCompareTo x y = -1) (rebalance ranks b) ∧
      (∀ i, i < ranks.length →
        ∃ r, (rebalance ranks b)[i]? = some r ∧
          strToBigInt r.value =
            strToBigInt (minValue DefaultLength) +
              (strToBigInt (maxValue DefaultLength) -
                strToBigInt (minValue DefaultLength)) /
                ((ranks.length + 1 : Nat) : Int) * ((i + 1 : Nat) : Int)) ∧
      (∀ r ∈ rebalance ranks b, ¬ r.value = minValue DefaultLength ∧
        ¬ r.value = maxValue DefaultLength)) := by
  refine ⟨fun b => rfl, ?_⟩
  intro ranks b _hs h1 h2
  have hd2 : (36 : Nat) ^ 6 - 2 = 2176782334 := by norm_num
  rw [hd2] at h2
  have hmin0 : strToBigInt (List.replicate DefaultLength minChar) = 0 := by decide
  have hmax : strToBigInt (List.replicate DefaultLength maxChar) = 2176782335 := by decide
  have hcast : (strToBigInt (List.replicate DefaultLength maxChar) -
      strToBigInt (List.replicate DefaultLength minChar)) /
        ((ranks.length + 1 : Nat) : Int) =
      ((2176782335 / (ranks.length + 1) : Nat) : Int) := by
    rw [hmax, hmin0, sub_zero]
    norm_cast
  have hs1 : 1 ≤ 2176782335 / (ranks.length + 1) := by
    rw [Nat.le_div_iff_mul_le (by omega : 0 < ranks.length + 1)]
    omega
  have hsn : 2176782335 / (ranks.length + 1) * (ranks.length + 1) ≤ 2176782335 :=
    Nat.div_mul_le_self _ _
  have hbound : ∀ i, i < ranks.length →
      2176782335 / (ranks.length + 1) * (i + 1) < 2176782335 := by
    intro i hi
    have e1 : 2176782335 / (ranks.length + 1) * (i + 1) ≤
        2176782335 / (ranks.length + 1) * ranks.length :=
      Nat.mul_le_mul_left _ (by omega)
    have e2 : 2176782335 / (ranks.length + 1) * ranks.length +
        2176782335 / (ranks.length + 1) =
        2176782335 / (ranks.length + 1) * (ranks.length + 1) := by ring
    omega
  have h36 : (2176782335 : Nat) < 36 ^ 6 := by norm_num
  have hreb : rebalance ranks b = (List.range ranks.length).map
      (fun i => ⟨b, bigIntToStr
        (((2176782335 / (ranks.length + 1) * (i + 1) : Nat) : Int))
        DefaultLength⟩) := by
    unfold rebalance
    dsimp only
    rw [if_neg (by omega : ¬ ranks.length = 0)]
    rw [if_neg (by
      rw [hcast]
      intro hc
      have := Int.natCast_eq_zero.mp hc
      omega)]
    apply List.map_congr_left
    intro i _
    have : strToBigInt (List.replicate DefaultLength minChar) +
        (strToBigInt (List.replicate DefaultLength maxChar) -
          strToBigInt (List.replicate DefaultLength minChar)) /
          ((ranks.length + 1 : Nat) : Int) * ((i + 1 : Nat) : Int) =
        ((2176782335 / (ranks.length + 1) * (i + 1) : Nat) : Int) := by
      rw [hcast, hmin0, zero_add]
      exact (Nat.cast_mul _ _).symm
    rw [this]
  have hvals : ∀ i, i < ranks.length →
      (bigIntToStr (((2176782335 / (ranks.length + 1) * (i + 1) : Nat) : Int))
          DefaultLength).length = DefaultLength ∧
        (bigIntToStr (((2176782335 / (ranks.length + 1) * (i + 1) : Nat) : Int))
          DefaultLength).all isValidChar = true ∧
        valNat (bigIntToStr (((2176782335 / (ranks.length + 1) * (i + 1) : Nat) : Int))
          DefaultLength) = 2176782335 / (ranks.length + 1) * (i + 1) := by
    intro i hi
    have hb : (((2176782335 / (ranks.length + 1) * (i + 1) : Nat) : Int)).toNat <
        36 ^ DefaultLength := by
      rw [Int.toNat_natCast]
      have := hbound i hi
      show _ < 36 ^ 6
      omega
    exact ⟨bigIntToStr_length _ _ hb, bigIntToStr_valid _ _,
      by rw [bigIntToStr_valNat, Int.toNat_natCast]⟩
  refine ⟨?_, ?_, ?_, ?_, ?_⟩
  · rw [hreb, List.length_map, List.length_range]
  · intro r hr
    rw [hreb] at hr
    obtain ⟨i, _, rfl⟩ := List.mem_map.mp hr
    rfl
  · rw [hreb, List.pairwise_map]
    apply (List.pairwise_lt_range _).imp_of_mem
    intro i j hi hj hij
    rw [List.mem_range] at hi hj
    obtain ⟨hli, hvi, hni⟩ := hvals i hi
    obtain ⟨hlj, hvj, hnj⟩ := hvals j hj
    rw [rankCompareTo_eq_bucket
      ⟨b, bigIntToStr (((2176782335 / (ranks.length + 1) * (i + 1) : Nat) : Int))
        DefaultLength⟩
      ⟨b, bigIntToStr (((2176782335 / (ranks.length + 1) * (j + 1) : Nat) : Int))
        DefaultLength⟩ rfl]
    show compareToVal _ _ = -1
    rw [compareToVal_neg_iff _ _ hvi hvj (le_of_eq hli) (le_of_eq hlj)]
    unfold sval
    rw [hli, hlj, hni, hnj]
    simp only [Nat.sub_self, pow_zero, Nat.mul_one]
    have := hs1
    nlinarith
  · intro i hi
    refine ⟨⟨b, bigIntToStr
      (((2176782335 / (ranks.length + 1) * (i + 1) : Nat) : Int)) DefaultLength⟩, ?_, ?_⟩
    · rw [hreb, List.getElem?_map, List.getElem?_range hi]
      rfl
    · show strToBigInt (bigIntToStr
        (((2176782335 / (ranks.length + 1) * (i + 1) : Nat) : Int)) DefaultLength) = _
      obtain ⟨hli, hvi, hni⟩ := hvals i hi
      rw [strToBigInt_eq_valNat _ hvi, hni]
      have hcast2 : (strToBigInt (maxValue DefaultLength) -
          strToBigInt (minValue DefaultLength)) /
            ((ranks.length + 1 : Nat) : Int) =
          ((2176782335 / (ranks.length + 1) : Nat) : Int) := hcast
      have hminv : strToBigInt (minValue DefaultLength) = 0 := hmin0
      rw [hcast2, hminv, zero_add]
      exact Nat.cast_mul _ _
  · intro r hr
    rw [hreb] at hr
    obtain ⟨i, hi, rfl⟩ := List.mem_map.mp hr
    rw [List.mem_range] at hi
    obtain ⟨hli, hvi, hni⟩ := hvals i hi
    constructor
    · intro hc
      have := congrArg valNat hc
      rw [hni] at this
      have hm : valNat (minValue DefaultLength) = 0 := valNat_replicate_min _
      rw [hm] at this
      have := hbound i hi
      have := hs1
      nlinarith
    · intro hc
      have := congrArg valNat hc
      rw [hni] at this
      have hm : valNat (maxValue DefaultLength) = 36 ^ DefaultLength - 1 :=
        valNat_replicate_max _
      rw [hm] at this
      have h6 : (36 : Nat) ^ DefaultLength - 1 = 2176782335 := by
        show (36 : Nat) ^ 6 - 1 = 2176782335
        norm_num
      rw [h6] at this
      have := hbound i hi
      omega

/-- Witness for the amended C6 on a two-element sorted input. -/
theorem C6_rebalance_witness :
    (rebalance [⟨Bucket.b0, ['a']⟩, ⟨Bucket.b0, ['b']⟩] Bucket.b1).length = 2 ∧
      (∀ r ∈ rebalance [(⟨Bucket.b0, ['a']⟩ : LexoRank), ⟨Bucket.b0, ['b']⟩] Bucket.b1,
        r.bucket = Bucket.b1) ∧
      List.Pairwise (fun x y => rankCompareTo x y = -1)
        (rebalance [⟨Bucket.b0, ['a']⟩, ⟨Bucket.b0, ['b']⟩] Bucket.b1) ∧
      (∀ i, i < ([(⟨Bucket.b0, ['a']⟩ : LexoRank), ⟨Bucket.b0, ['b']⟩] :
          List LexoRank).length →
        ∃ r, (rebalance [⟨Bucket.b0, ['a']⟩, ⟨Bucket.b0, ['b']⟩] Bucket.b1)[i]? =
            some r ∧
          strToBigInt r.value =
            strToBigInt (minValue DefaultLength) +
              (strToBigInt (maxValue DefaultLength) -
                strToBigInt (minValue DefaultLength)) /
                ((([(⟨Bucket.b0, ['a']⟩ : LexoRank), ⟨Bucket.b0, ['b']⟩] :
                  List LexoRank).length + 1 : Nat) : Int) * ((i + 1 : Nat) : Int)) ∧
      (∀ r ∈ rebalance [(⟨Bucket.b0, ['a']⟩ : LexoRank), ⟨Bucket.b0, ['b']⟩] Bucket.b1,
        ¬ r.value = minValue DefaultLength ∧ ¬ r.value = maxValue DefaultLength) := by
  have h := C6_rebalance.2 [⟨Bucket.b0, ['a']⟩, ⟨Bucket.b0, ['b']⟩] Bucket.b1
    (by decide) (by decide) (by norm_num)
  exact ⟨h.1.trans (by decide), h.2.1, h.2.2.1, h.2.2.2.1, h.2.2.2.2⟩

end Gexorank

